import Mathlib

/-!
Verification development for the display-filter compiler and evaluation
engine declared in `epan/dfilter/dfilter.h`.  The repository snapshot
contains the public header (error codes, compile flags, the
`dfilter_compile` convenience macro and the entry-point declarations) but
not the implementation translation units; the pipeline behaviour
(macro expansion, lexing, parsing, semantic resolution, optimization,
bytecode generation and the evaluating virtual machine) is therefore
modelled from the design specification and checked against it.
-/

set_option linter.all false

namespace Dfilter

/-- Decidable equality of fallible results, used to evaluate the model on
concrete inputs. -/
instance {e a : Type} [DecidableEq e] [DecidableEq a] : DecidableEq (Except e a) :=
  fun x y =>
    match x, y with
    | .error u, .error v =>
        if h : u = v then isTrue (by rw [h]) else isFalse (fun hc => by
          cases hc
          exact h rfl)
    | .ok u, .ok v =>
        if h : u = v then isTrue (by rw [h]) else isFalse (fun hc => by
          cases hc
          exact h rfl)
    | .error _, .ok _ => isFalse (fun hc => Except.noConfusion hc)
    | .ok _, .error _ => isFalse (fun hc => Except.noConfusion hc)

/-- Modelled from the spec: a field/literal value.  The spec's value types
(integer, boolean, string, byte sequence, address) are modelled by a closed
tagged variant; addresses are byte sequences for comparison purposes, which
is how raw-byte comparison treats them. -/
inductive FValue where
  | int (n : Int)
  | boolv (b : Bool)
  | str (s : List Char)
  | bytes (bs : List Nat)
deriving DecidableEq, Repr

/-- Modelled from the spec: the comparison kinds that admit the
literal/field operand-order normalization (equality and ordering); the
optimizer's canonicalization mirrors exactly these. -/
inductive OrdOp where
  | eq | ne | lt | gt | le | ge
deriving DecidableEq, Repr

/-- Modelled from the spec: all relational comparison kinds of a test node:
equality/ordering, substring "contains", and pattern "matches". -/
inductive CmpKind where
  | ord (op : OrdOp)
  | contains
  | matches
deriving DecidableEq, Repr

/-- The mirrored comparison operator used by the optimizer to rewrite
`literal OP field` into `field OP' literal`. -/
def mirror : OrdOp → OrdOp
  | .eq => .eq
  | .ne => .ne
  | .lt => .gt
  | .gt => .lt
  | .le => .ge
  | .ge => .le

/-- Value equality (false across distinct value types). -/
def fvEq (a b : FValue) : Bool := decide (a = b)

/-- Lexicographic strict order on byte sequences. -/
def lexLt : List Nat → List Nat → Bool
  | [], [] => false
  | [], _ :: _ => true
  | _ :: _, [] => false
  | a :: as, b :: bs => if a < b then true else if a = b then lexLt as bs else false

/-- Lexicographic strict order on character sequences. -/
def strLt : List Char → List Char → Bool
  | [], [] => false
  | [], _ :: _ => true
  | _ :: _, [] => false
  | a :: as, b :: bs => if a < b then true else if a = b then strLt as bs else false

/-- Strict order on values; comparable only within one value type. -/
def fvLt : FValue → FValue → Bool
  | .int a, .int b => decide (a < b)
  | .str a, .str b => strLt a b
  | .bytes a, .bytes b => lexLt a b
  | _, _ => false

/-- Non-strict order on values. -/
def fvLe (a b : FValue) : Bool := fvLt a b || fvEq a b

/-- Semantics of an equality/ordering comparison between two values. -/
def cmpOrd : OrdOp → FValue → FValue → Bool
  | .eq, a, b => fvEq a b
  | .ne, a, b => !fvEq a b
  | .lt, a, b => fvLt a b
  | .gt, a, b => fvLt b a
  | .le, a, b => fvLe a b
  | .ge, a, b => fvLe b a

/-- Does the first list start with the second list? -/
def startsWithB {α : Type} [DecidableEq α] : List α → List α → Bool
  | _, [] => true
  | [], _ :: _ => false
  | a :: as, b :: bs => decide (a = b) && startsWithB as bs

/-- Is the second list a contiguous sub-list of the first? -/
def isSubListB {α : Type} [DecidableEq α] : List α → List α → Bool
  | [], needle => needle.isEmpty
  | a :: t, needle => startsWithB (a :: t) needle || isSubListB t needle

/-- Modelled from the spec: the "contains" comparison, restricted to
sequence/string-like operand types. -/
def fvContains : FValue → FValue → Bool
  | .str h, .str n => isSubListB h n
  | .bytes h, .bytes n => isSubListB h n
  | _, _ => false

/-- Modelled from the spec: the "matches" pattern comparison.  The pattern
engine is an external collaborator; its boolean match query is modelled as
a substring query, which is all the core requires of it. -/
def fvMatches : FValue → FValue → Bool
  | .str h, .str p => isSubListB h p
  | _, _ => false

/-- Semantics of one relational comparison kind between two values. -/
def cmpPrim : CmpKind → FValue → FValue → Bool
  | .ord op, a, b => cmpOrd op a b
  | .contains, a, b => fvContains a b
  | .matches, a, b => fvMatches a b

/-- Modelled from the spec: a record's field-value tree, flattened to the
multiset of field instances the evaluator queries: each entry is one
concrete occurrence (field identifier, value).  A field may occur zero,
one, or many times. -/
abbrev Record := List (Nat × FValue)

/-- Modelled from the spec: the record-tree query used by a "read field"
instruction — fetch the set of instances of a field from the record. -/
def readField (r : Record) (fid : Nat) : List FValue :=
  (r.filter (fun p => p.1 == fid)).map Prod.snd

/-- Modelled from the spec: the typed syntax tree produced by the semantic
resolver.  `test` is `field OP literal`; `testLF` is the not-yet-normalized
`literal OP field` form; `testLL` is a literal-only test (constant-foldable);
`testIn` is set membership `field in { ... }`. -/
inductive STNode where
  | constant (b : Bool)
  | test (fid : Nat) (op : CmpKind) (lit : FValue)
  | testLF (lit : FValue) (op : OrdOp) (fid : Nat)
  | testLL (a : FValue) (op : CmpKind) (b : FValue)
  | testIn (fid : Nat) (elems : List FValue)
  | and (a b : STNode)
  | or (a b : STNode)
  | not (a : STNode)
deriving DecidableEq, Repr

/-- Modelled from the spec: reference semantics of a typed tree on one
record.  A field read yields the set of instances; a comparison against
that set is true iff any instance satisfies it (existential
quantification); set membership is true iff some instance equals some set
element; a missing field yields the empty instance set and hence a false
comparison, never an error. -/
def evalNode (r : Record) : STNode → Bool
  | .constant b => b
  | .test fid op lit => (readField r fid).any (fun v => cmpPrim op v lit)
  | .testLF lit op fid => (readField r fid).any (fun v => cmpOrd op lit v)
  | .testLL a op b => cmpPrim op a b
  | .testIn fid es => (readField r fid).any (fun v => es.any (fun e => fvEq v e))
  | .and a b => evalNode r a && evalNode r b
  | .or a b => evalNode r a || evalNode r b
  | .not a => !(evalNode r a)

/-- Is the node the constant-false tree? -/
def isConstFalse : STNode → Bool
  | .constant false => true
  | _ => false

/-- Is the node the constant-true tree? -/
def isConstTrue : STNode → Bool
  | .constant true => true
  | _ => false

/-- Modelled from the spec: the flag-gated optimization pass on the typed
tree.  Rules: constant-fold literal-only relational tests to a boolean
constant; short-circuit an AND with a false constant child to false and an
OR with a true constant child to true; normalize `literal OP field` into
`field OP' literal` with the mirrored comparison operator. -/
def optimize : STNode → STNode
  | .constant b => .constant b
  | .test fid op lit => .test fid op lit
  | .testLF lit op fid => .test fid (.ord (mirror op)) lit
  | .testLL a op b => .constant (cmpPrim op a b)
  | .testIn fid es => .testIn fid es
  | .and a b =>
      let a' := optimize a
      let b' := optimize b
      if isConstFalse a' || isConstFalse b' then .constant false else .and a' b'
  | .or a b =>
      let a' := optimize a
      let b' := optimize b
      if isConstTrue a' || isConstTrue b' then .constant true else .or a' b'
  | .not a => .not (optimize a)

theorem optimize_idem (t : STNode) : optimize (optimize t) = optimize t := by
  induction t with
  | constant b => rfl
  | test fid op lit => rfl
  | testLF lit op fid => rfl
  | testLL a op b => rfl
  | testIn fid es => rfl
  | and a b iha ihb =>
      show optimize (optimize (.and a b)) = optimize (.and a b)
      rw [show optimize (.and a b)
            = if isConstFalse (optimize a) || isConstFalse (optimize b)
              then .constant false else .and (optimize a) (optimize b) from rfl]
      by_cases h : (isConstFalse (optimize a) || isConstFalse (optimize b)) = true
      · rw [if_pos h]
        rfl
      · rw [if_neg h]
        rw [show optimize (.and (optimize a) (optimize b))
              = if (isConstFalse (optimize (optimize a)) || isConstFalse (optimize (optimize b))) = true
                then .constant false
                else .and (optimize (optimize a)) (optimize (optimize b)) from rfl]
        rw [iha, ihb]
        rw [if_neg h]
  | or a b iha ihb =>
      show optimize (optimize (.or a b)) = optimize (.or a b)
      rw [show optimize (.or a b)
            = if isConstTrue (optimize a) || isConstTrue (optimize b)
              then .constant true else .or (optimize a) (optimize b) from rfl]
      by_cases h : (isConstTrue (optimize a) || isConstTrue (optimize b)) = true
      · rw [if_pos h]
        rfl
      · rw [if_neg h]
        rw [show optimize (.or (optimize a) (optimize b))
              = if (isConstTrue (optimize (optimize a)) || isConstTrue (optimize (optimize b))) = true
                then .constant true
                else .or (optimize (optimize a)) (optimize (optimize b)) from rfl]
        rw [iha, ihb]
        rw [if_neg h]
  | not a iha =>
      show STNode.not (optimize (optimize a)) = STNode.not (optimize a)
      rw [iha]

theorem fvEq_comm (a b : FValue) : fvEq a b = fvEq b a := by
  unfold fvEq
  by_cases h : a = b
  · subst h; rfl
  · have h' : ¬ b = a := fun hba => h hba.symm
    simp [h, h']

theorem cmpOrd_mirror (op : OrdOp) (a b : FValue) :
    cmpOrd (mirror op) a b = cmpOrd op b a := by
  cases op with
  | eq => show fvEq a b = fvEq b a; exact fvEq_comm a b
  | ne => show (!fvEq a b) = !fvEq b a; rw [fvEq_comm]
  | lt => rfl
  | gt => rfl
  | le => rfl
  | ge => rfl

theorem eval_isConstFalse {n : STNode} (h : isConstFalse n = true) (r : Record) :
    evalNode r n = false := by
  cases n with
  | constant b => cases b with
    | false => rfl
    | true => simp [isConstFalse] at h
  | test fid op lit => simp [isConstFalse] at h
  | testLF lit op fid => simp [isConstFalse] at h
  | testLL a op b => simp [isConstFalse] at h
  | testIn fid es => simp [isConstFalse] at h
  | and a b => simp [isConstFalse] at h
  | or a b => simp [isConstFalse] at h
  | not a => simp [isConstFalse] at h

theorem eval_isConstTrue {n : STNode} (h : isConstTrue n = true) (r : Record) :
    evalNode r n = true := by
  cases n with
  | constant b => cases b with
    | true => rfl
    | false => simp [isConstTrue] at h
  | test fid op lit => simp [isConstTrue] at h
  | testLF lit op fid => simp [isConstTrue] at h
  | testLL a op b => simp [isConstTrue] at h
  | testIn fid es => simp [isConstTrue] at h
  | and a b => simp [isConstTrue] at h
  | or a b => simp [isConstTrue] at h
  | not a => simp [isConstTrue] at h

theorem optimize_preserves (r : Record) (t : STNode) :
    evalNode r (optimize t) = evalNode r t := by
  induction t with
  | constant b => rfl
  | test fid op lit => rfl
  | testLF lit op fid =>
      show (readField r fid).any (fun v => cmpPrim (.ord (mirror op)) v lit)
            = (readField r fid).any (fun v => cmpOrd op lit v)
      apply congrArg
      funext v
      show cmpOrd (mirror op) v lit = cmpOrd op lit v
      exact cmpOrd_mirror op v lit
  | testLL a op b => rfl
  | testIn fid es => rfl
  | and a b iha ihb =>
      rw [show optimize (.and a b)
            = if isConstFalse (optimize a) || isConstFalse (optimize b)
              then .constant false else .and (optimize a) (optimize b) from rfl]
      by_cases h : (isConstFalse (optimize a) || isConstFalse (optimize b)) = true
      · rw [if_pos h]
        rcases Bool.or_eq_true_iff.mp h with hf | hf
        · have := eval_isConstFalse hf r
          rw [iha] at this
          show false = (evalNode r a && evalNode r b)
          rw [this, Bool.false_and]
        · have := eval_isConstFalse hf r
          rw [ihb] at this
          show false = (evalNode r a && evalNode r b)
          rw [this, Bool.and_false]
      · rw [if_neg h]
        show (evalNode r (optimize a) && evalNode r (optimize b))
              = (evalNode r a && evalNode r b)
        rw [iha, ihb]
  | or a b iha ihb =>
      rw [show optimize (.or a b)
            = if isConstTrue (optimize a) || isConstTrue (optimize b)
              then .constant true else .or (optimize a) (optimize b) from rfl]
      by_cases h : (isConstTrue (optimize a) || isConstTrue (optimize b)) = true
      · rw [if_pos h]
        rcases Bool.or_eq_true_iff.mp h with hf | hf
        · have := eval_isConstTrue hf r
          rw [iha] at this
          show true = (evalNode r a || evalNode r b)
          rw [this, Bool.true_or]
        · have := eval_isConstTrue hf r
          rw [ihb] at this
          show true = (evalNode r a || evalNode r b)
          rw [this, Bool.or_true]
      · rw [if_neg h]
        show (evalNode r (optimize a) || evalNode r (optimize b))
              = (evalNode r a || evalNode r b)
        rw [iha, ihb]
  | not a iha =>
      show (!evalNode r (optimize a)) = !evalNode r a
      rw [iha]

/-- Modelled from the spec: one bytecode instruction of the compiled
program.  Operands reference registers, constants, or field descriptors:
"read field" fetches the instance set of a field into a register; the
compare instructions take an instance-set register and a constant and
produce a boolean register; the logical instructions combine boolean
registers. -/
inductive Instr where
  | readF (fid : Nat) (dst : Nat)
  | cmpC (op : CmpKind) (src : Nat) (lit : FValue) (dst : Nat)
  | cmpIn (src : Nat) (elems : List FValue) (dst : Nat)
  | constB (b : Bool) (dst : Nat)
  | andB (a b dst : Nat)
  | orB (a b dst : Nat)
  | notB (a dst : Nat)
deriving DecidableEq, Repr

/-- Modelled from the spec: an operand register holds either a set of
field-value instances or a boolean partial result. -/
inductive RegVal where
  | insts (l : List FValue)
  | boolv (b : Bool)
deriving DecidableEq, Repr

/-- Read a register as a boolean partial result. -/
def getBool : RegVal → Bool
  | .boolv b => b
  | .insts _ => false

/-- Read a register as an instance set. -/
def getInsts : RegVal → List FValue
  | .insts l => l
  | .boolv _ => []

/-- The register file of one evaluation. -/
abbrev RegFile := Nat → RegVal

/-- Write one register. -/
def setReg (ρ : RegFile) (i : Nat) (v : RegVal) : RegFile :=
  fun j => if j = i then v else ρ j

/-- Modelled from the spec: the effect of one instruction on the register
file, for a fixed record.  A "read field" yields the (possibly empty) set
of instances; a comparison against that set is true iff any instance
satisfies it.  No instruction can fail. -/
def step (r : Record) (ρ : RegFile) : Instr → RegFile
  | .readF fid dst => setReg ρ dst (.insts (readField r fid))
  | .cmpC op src lit dst =>
      setReg ρ dst (.boolv ((getInsts (ρ src)).any (fun v => cmpPrim op v lit)))
  | .cmpIn src es dst =>
      setReg ρ dst (.boolv ((getInsts (ρ src)).any (fun v => es.any (fun e => fvEq v e))))
  | .constB b dst => setReg ρ dst (.boolv b)
  | .andB a b dst => setReg ρ dst (.boolv (getBool (ρ a) && getBool (ρ b)))
  | .orB a b dst => setReg ρ dst (.boolv (getBool (ρ a) || getBool (ρ b)))
  | .notB a dst => setReg ρ dst (.boolv (!getBool (ρ a)))

/-- Execute an instruction sequence in order. -/
def execInstrs (r : Record) (code : List Instr) (ρ : RegFile) : RegFile :=
  code.foldl (step r) ρ

/-- The destination register an instruction writes. -/
def instrDst : Instr → Nat
  | .readF _ d => d
  | .cmpC _ _ _ d => d
  | .cmpIn _ _ d => d
  | .constB _ d => d
  | .andB _ _ d => d
  | .orB _ _ d => d
  | .notB _ d => d

/-- All instructions of the code write registers at or above `n`. -/
def codeWritesAbove (n : Nat) (code : List Instr) : Prop :=
  ∀ i ∈ code, n ≤ instrDst i

/-- Modelled from the spec: the bytecode compiler's single post-order walk
with linear register allocation.  `gen t n` returns the emitted code, the
result (verdict) register, and the next free register; fresh registers are
taken from `n` upward. -/
def gen : STNode → Nat → (List Instr × Nat × Nat)
  | .constant b, n => ([.constB b n], n, n + 1)
  | .test fid op lit, n => ([.readF fid n, .cmpC op n lit (n + 1)], n + 1, n + 2)
  | .testLF lit op fid, n =>
      ([.readF fid n, .cmpC (.ord (mirror op)) n lit (n + 1)], n + 1, n + 2)
  | .testLL a op b, n => ([.constB (cmpPrim op a b) n], n, n + 1)
  | .testIn fid es, n => ([.readF fid n, .cmpIn n es (n + 1)], n + 1, n + 2)
  | .and a b, n =>
      let (ca, ra, n1) := gen a n
      let (cb, rb, n2) := gen b n1
      (ca ++ cb ++ [.andB ra rb n2], n2, n2 + 1)
  | .or a b, n =>
      let (ca, ra, n1) := gen a n
      let (cb, rb, n2) := gen b n1
      (ca ++ cb ++ [.orB ra rb n2], n2, n2 + 1)
  | .not a, n =>
      let (ca, ra, n1) := gen a n
      (ca ++ [.notB ra n1], n1, n1 + 1)

theorem setReg_same (ρ : RegFile) (i : Nat) (v : RegVal) : setReg ρ i v i = v := by
  simp [setReg]

theorem setReg_other (ρ : RegFile) (i j : Nat) (v : RegVal) (h : j ≠ i) :
    setReg ρ i v j = ρ j := by
  simp [setReg, h]

theorem step_other (r : Record) (ρ : RegFile) (i : Instr) (k : Nat)
    (h : k ≠ instrDst i) : step r ρ i k = ρ k := by
  cases i <;> exact setReg_other ρ _ k _ h

theorem execInstrs_nil (r : Record) (ρ : RegFile) : execInstrs r [] ρ = ρ := rfl

theorem execInstrs_cons (r : Record) (i : Instr) (code : List Instr) (ρ : RegFile) :
    execInstrs r (i :: code) ρ = execInstrs r code (step r ρ i) := rfl

theorem execInstrs_append (r : Record) (xs ys : List Instr) (ρ : RegFile) :
    execInstrs r (xs ++ ys) ρ = execInstrs r ys (execInstrs r xs ρ) :=
  List.foldl_append (step r) ρ xs ys

theorem execInstrs_frame (r : Record) (code : List Instr) (n : Nat)
    (hw : codeWritesAbove n code) (k : Nat) (hk : k < n) (ρ : RegFile) :
    execInstrs r code ρ k = ρ k := by
  induction code generalizing ρ with
  | nil => rfl
  | cons i rest ih =>
      rw [execInstrs_cons]
      have hi : n ≤ instrDst i := hw i (List.mem_cons_self i rest)
      have hrest : codeWritesAbove n rest := fun j hj => hw j (List.mem_cons_of_mem i hj)
      rw [ih hrest]
      exact step_other r ρ i k (Nat.ne_of_lt (Nat.lt_of_lt_of_le hk hi))

theorem codeWritesAbove_append {n : Nat} {xs ys : List Instr}
    (hx : codeWritesAbove n xs) (hy : codeWritesAbove n ys) :
    codeWritesAbove n (xs ++ ys) := by
  intro i hi
  rcases List.mem_append.mp hi with h | h
  · exact hx i h
  · exact hy i h

theorem codeWritesAbove_mono {n m : Nat} {xs : List Instr} (hnm : n ≤ m)
    (hx : codeWritesAbove m xs) : codeWritesAbove n xs :=
  fun i hi => Nat.le_trans hnm (hx i hi)

/-- Correctness of the bytecode compiler against the typed-tree semantics:
the generated code's result register holds the boolean verdict of the tree,
registers below the allocation base are untouched, and all writes stay at
or above the base. -/
theorem gen_ok : ∀ (t : STNode) (n : Nat) (code : List Instr) (res nxt : Nat),
    gen t n = (code, res, nxt) →
    n ≤ nxt ∧ res < nxt ∧ codeWritesAbove n code ∧
    (∀ (r : Record) (ρ : RegFile),
      execInstrs r code ρ res = .boolv (evalNode r t) ∧
      ∀ k, k < n → execInstrs r code ρ k = ρ k) := by
  intro t
  induction t with
  | constant b =>
      intro n code res nxt h
      injection h with h1 h2
      injection h2 with h2 h3
      subst h1; subst h2; subst h3
      refine ⟨Nat.le_succ n, Nat.lt_succ_self n, ?_, ?_⟩
      · intro i hi
        rcases List.mem_singleton.mp hi with rfl
        exact Nat.le_refl n
      · intro r ρ
        constructor
        · exact setReg_same ρ n _
        · intro k hk
          exact step_other r ρ (.constB b n) k (Nat.ne_of_lt hk)
  | test fid op lit =>
      intro n code res nxt h
      injection h with h1 h2
      injection h2 with h2 h3
      subst h1; subst h2; subst h3
      refine ⟨Nat.le_add_right n 2, Nat.lt_succ_self (n + 1), ?_, ?_⟩
      · intro i hi
        rcases List.mem_cons.mp hi with rfl | hi'
        · exact Nat.le_refl n
        · rcases List.mem_singleton.mp hi' with rfl
          exact Nat.le_succ n
      · intro r ρ
        constructor
        · show step r (step r ρ (.readF fid n)) (.cmpC op n lit (n + 1)) (n + 1)
                = .boolv (evalNode r (.test fid op lit))
          rw [show step r (step r ρ (.readF fid n)) (.cmpC op n lit (n + 1)) (n + 1)
                = .boolv ((getInsts (step r ρ (.readF fid n) n)).any
                    (fun v => cmpPrim op v lit)) from setReg_same _ _ _]
          rw [show step r ρ (.readF fid n) n = .insts (readField r fid) from setReg_same _ _ _]
          rfl
        · intro k hk
          show step r (step r ρ (.readF fid n)) (.cmpC op n lit (n + 1)) k = ρ k
          rw [step_other r (step r ρ (.readF fid n)) (.cmpC op n lit (n + 1)) k
                (show k ≠ n + 1 by omega)]
          exact step_other r ρ (.readF fid n) k (show k ≠ n by omega)
  | testLF lit op fid =>
      intro n code res nxt h
      injection h with h1 h2
      injection h2 with h2 h3
      subst h1; subst h2; subst h3
      refine ⟨Nat.le_add_right n 2, Nat.lt_succ_self (n + 1), ?_, ?_⟩
      · intro i hi
        rcases List.mem_cons.mp hi with rfl | hi'
        · exact Nat.le_refl n
        · rcases List.mem_singleton.mp hi' with rfl
          exact Nat.le_succ n
      · intro r ρ
        constructor
        · show step r (step r ρ (.readF fid n)) (.cmpC (.ord (mirror op)) n lit (n + 1)) (n + 1)
                = .boolv (evalNode r (.testLF lit op fid))
          rw [show step r (step r ρ (.readF fid n)) (.cmpC (.ord (mirror op)) n lit (n + 1)) (n + 1)
                = .boolv ((getInsts (step r ρ (.readF fid n) n)).any
                    (fun v => cmpPrim (.ord (mirror op)) v lit)) from setReg_same _ _ _]
          rw [show step r ρ (.readF fid n) n = .insts (readField r fid) from setReg_same _ _ _]
          show RegVal.boolv ((readField r fid).any (fun v => cmpOrd (mirror op) v lit))
                = .boolv ((readField r fid).any (fun v => cmpOrd op lit v))
          apply congrArg
          apply congrArg
          funext v
          exact cmpOrd_mirror op v lit
        · intro k hk
          show step r (step r ρ (.readF fid n)) (.cmpC (.ord (mirror op)) n lit (n + 1)) k = ρ k
          rw [step_other r (step r ρ (.readF fid n)) (.cmpC (.ord (mirror op)) n lit (n + 1)) k
                (show k ≠ n + 1 by omega)]
          exact step_other r ρ (.readF fid n) k (show k ≠ n by omega)
  | testLL a op b =>
      intro n code res nxt h
      injection h with h1 h2
      injection h2 with h2 h3
      subst h1; subst h2; subst h3
      refine ⟨Nat.le_succ n, Nat.lt_succ_self n, ?_, ?_⟩
      · intro i hi
        rcases List.mem_singleton.mp hi with rfl
        exact Nat.le_refl n
      · intro r ρ
        constructor
        · exact setReg_same ρ n _
        · intro k hk
          exact step_other r ρ (.constB (cmpPrim op a b) n) k (Nat.ne_of_lt hk)
  | testIn fid es =>
      intro n code res nxt h
      injection h with h1 h2
      injection h2 with h2 h3
      subst h1; subst h2; subst h3
      refine ⟨Nat.le_add_right n 2, Nat.lt_succ_self (n + 1), ?_, ?_⟩
      · intro i hi
        rcases List.mem_cons.mp hi with rfl | hi'
        · exact Nat.le_refl n
        · rcases List.mem_singleton.mp hi' with rfl
          exact Nat.le_succ n
      · intro r ρ
        constructor
        · show step r (step r ρ (.readF fid n)) (.cmpIn n es (n + 1)) (n + 1)
                = .boolv (evalNode r (.testIn fid es))
          rw [show step r (step r ρ (.readF fid n)) (.cmpIn n es (n + 1)) (n + 1)
                = .boolv ((getInsts (step r ρ (.readF fid n) n)).any
                    (fun v => es.any (fun e => fvEq v e))) from setReg_same _ _ _]
          rw [show step r ρ (.readF fid n) n = .insts (readField r fid) from setReg_same _ _ _]
          rfl
        · intro k hk
          show step r (step r ρ (.readF fid n)) (.cmpIn n es (n + 1)) k = ρ k
          rw [step_other r (step r ρ (.readF fid n)) (.cmpIn n es (n + 1)) k
                (show k ≠ n + 1 by omega)]
          exact step_other r ρ (.readF fid n) k (show k ≠ n by omega)
  | and a b iha ihb =>
      intro n code res nxt h
      rcases hga : gen a n with ⟨ca, ra, n1⟩
      rcases hgb : gen b n1 with ⟨cb, rb, n2⟩
      simp only [gen, hga, hgb] at h
      injection h with h1 h2
      injection h2 with h2 h3
      subst h1; subst h2; subst h3
      obtain ⟨hle_a, hres_a, hw_a, heval_a⟩ := iha n ca ra n1 hga
      obtain ⟨hle_b, hres_b, hw_b, heval_b⟩ := ihb n1 cb rb n2 hgb
      refine ⟨by omega, Nat.lt_succ_self n2, ?_, ?_⟩
      · apply codeWritesAbove_append
        · apply codeWritesAbove_append hw_a
          exact codeWritesAbove_mono hle_a hw_b
        · intro i hi
          rcases List.mem_singleton.mp hi with rfl
          show n ≤ n2
          omega
      · intro r ρ
        rw [execInstrs_append, execInstrs_append]
        obtain ⟨hres_ca, hfr_ca⟩ := heval_a r ρ
        obtain ⟨hres_cb, hfr_cb⟩ := heval_b r (execInstrs r ca ρ)
        constructor
        · show step r (execInstrs r cb (execInstrs r ca ρ)) (.andB ra rb n2) n2
                = .boolv (evalNode r (.and a b))
          rw [show step r (execInstrs r cb (execInstrs r ca ρ)) (.andB ra rb n2) n2
                = .boolv (getBool (execInstrs r cb (execInstrs r ca ρ) ra)
                    && getBool (execInstrs r cb (execInstrs r ca ρ) rb)) from setReg_same _ _ _]
          rw [execInstrs_frame r cb n1 hw_b ra hres_a]
          rw [hres_ca, hres_cb]
          rfl
        · intro k hk
          show step r (execInstrs r cb (execInstrs r ca ρ)) (.andB ra rb n2) k = ρ k
          rw [step_other r (execInstrs r cb (execInstrs r ca ρ)) (.andB ra rb n2) k
                (show k ≠ n2 by omega)]
          rw [execInstrs_frame r cb n1 hw_b k (by omega)]
          exact hfr_ca k hk
  | or a b iha ihb =>
      intro n code res nxt h
      rcases hga : gen a n with ⟨ca, ra, n1⟩
      rcases hgb : gen b n1 with ⟨cb, rb, n2⟩
      simp only [gen, hga, hgb] at h
      injection h with h1 h2
      injection h2 with h2 h3
      subst h1; subst h2; subst h3
      obtain ⟨hle_a, hres_a, hw_a, heval_a⟩ := iha n ca ra n1 hga
      obtain ⟨hle_b, hres_b, hw_b, heval_b⟩ := ihb n1 cb rb n2 hgb
      refine ⟨by omega, Nat.lt_succ_self n2, ?_, ?_⟩
      · apply codeWritesAbove_append
        · apply codeWritesAbove_append hw_a
          exact codeWritesAbove_mono hle_a hw_b
        · intro i hi
          rcases List.mem_singleton.mp hi with rfl
          show n ≤ n2
          omega
      · intro r ρ
        rw [execInstrs_append, execInstrs_append]
        obtain ⟨hres_ca, hfr_ca⟩ := heval_a r ρ
        obtain ⟨hres_cb, hfr_cb⟩ := heval_b r (execInstrs r ca ρ)
        constructor
        · show step r (execInstrs r cb (execInstrs r ca ρ)) (.orB ra rb n2) n2
                = .boolv (evalNode r (.or a b))
          rw [show step r (execInstrs r cb (execInstrs r ca ρ)) (.orB ra rb n2) n2
                = .boolv (getBool (execInstrs r cb (execInstrs r ca ρ) ra)
                    || getBool (execInstrs r cb (execInstrs r ca ρ) rb)) from setReg_same _ _ _]
          rw [execInstrs_frame r cb n1 hw_b ra hres_a]
          rw [hres_ca, hres_cb]
          rfl
        · intro k hk
          show step r (execInstrs r cb (execInstrs r ca ρ)) (.orB ra rb n2) k = ρ k
          rw [step_other r (execInstrs r cb (execInstrs r ca ρ)) (.orB ra rb n2) k
                (show k ≠ n2 by omega)]
          rw [execInstrs_frame r cb n1 hw_b k (by omega)]
          exact hfr_ca k hk
  | not a iha =>
      intro n code res nxt h
      rcases hga : gen a n with ⟨ca, ra, n1⟩
      simp only [gen, hga] at h
      injection h with h1 h2
      injection h2 with h2 h3
      subst h1; subst h2; subst h3
      obtain ⟨hle_a, hres_a, hw_a, heval_a⟩ := iha n ca ra n1 hga
      refine ⟨by omega, Nat.lt_succ_self n1, ?_, ?_⟩
      · apply codeWritesAbove_append hw_a
        intro i hi
        rcases List.mem_singleton.mp hi with rfl
        show n ≤ n1
        omega
      · intro r ρ
        rw [execInstrs_append]
        obtain ⟨hres_ca, hfr_ca⟩ := heval_a r ρ
        constructor
        · show step r (execInstrs r ca ρ) (.notB ra n1) n1
                = .boolv (evalNode r (.not a))
          rw [show step r (execInstrs r ca ρ) (.notB ra n1) n1
                = .boolv (!getBool (execInstrs r ca ρ ra)) from setReg_same _ _ _]
          rw [hres_ca]
          rfl
        · intro k hk
          show step r (execInstrs r ca ρ) (.notB ra n1) k = ρ k
          rw [step_other r (execInstrs r ca ρ) (.notB ra n1) k (show k ≠ n1 by omega)]
          exact hfr_ca k hk

/-- Modelled from the spec: the process-wide macro-definition table,
initialized once and read-only on the compile path: a list of
(name, body) pairs. -/
abbrev MacroTable := List (List Char × List Char)

/-- Modelled from the spec: the macro expander's error taxonomy — unknown
macro name, recursive expansion (the dedicated recursion error), an
unterminated invocation, and the expander's internal depth guard; each
carries the text position of the invocation it blames. -/
inductive MacroErr where
  | unknown (name : List Char) (pos : Nat)
  | recursion (name : List Char) (pos : Nat)
  | badSyntax (pos : Nat)
  | tooDeep (pos : Nat)
deriving DecidableEq, Repr

/-- Look a macro name up in the table. -/
def lookupMacro (ms : MacroTable) (n : List Char) : Option (List Char) :=
  match ms with
  | [] => none
  | (k, v) :: t => if k = n then some v else lookupMacro t n

/-- Scan an invocation's name up to the closing brace; `none` when the
invocation is unterminated. -/
def takeName : List Char → Option (List Char × List Char)
  | [] => none
  | c :: t =>
      if c = '\x7d' then some ([], t)
      else
        match takeName t with
        | none => none
        | some (nm, rest) => some (c :: nm, rest)

/-- Modelled from the spec: one expansion pass with a visited-set check
guarding against cycles.  A macro invocation is a dollar sign followed by
the braced name; invoking a name already on the expansion path is the
dedicated recursion error; expanding a body pushes its name onto the
visited set.  `fuel` decreases on every step and bounds the total work;
the top-level entry point supplies enough for any non-cyclic expansion. -/
def expandCh (ms : MacroTable) : Nat → List (List Char) → List Char → Nat →
    Except MacroErr (List Char)
  | _, _, [], _ => .ok []
  | 0, _, _ :: _, pos => .error (.tooDeep pos)
  | f + 1, seen, c :: t, pos =>
      if c = '$' then
        match t with
        | d :: t2 =>
            if d = '\x7b' then
              match takeName t2 with
              | none => .error (.badSyntax pos)
              | some (nm, rest) =>
                  if nm ∈ seen then .error (.recursion nm pos)
                  else
                    match lookupMacro ms nm with
                    | none => .error (.unknown nm pos)
                    | some body =>
                        match expandCh ms f (nm :: seen) body pos with
                        | .error e => .error e
                        | .ok eb =>
                            match expandCh ms f seen rest (pos + nm.length + 3) with
                            | .error e => .error e
                            | .ok er => .ok (eb ++ er)
            else
              match expandCh ms f seen (d :: t2) (pos + 1) with
              | .error e => .error e
              | .ok et => .ok (c :: et)
        | [] =>
            match expandCh ms f seen [] (pos + 1) with
            | .error e => .error e
            | .ok et => .ok (c :: et)
      else
        match expandCh ms f seen t (pos + 1) with
        | .error e => .error e
        | .ok et => .ok (c :: et)

/-- Total size of the table's bodies, used to size the expansion fuel. -/
def bodiesSize (ms : MacroTable) : Nat :=
  ms.foldl (fun a p => a + p.2.length + 2) 0

/-- Fuel that provably over-approximates the work of any expansion: one
unit per input character, plus room for every macro body that can be
entered before the visited-set check fires. -/
def expandFuel (ms : MacroTable) (expr : List Char) : Nat :=
  expr.length + 1 + (ms.length + 1) * (bodiesSize ms + 2)

/-- Modelled from the spec: `dfilter_expand` — perform macro expansion on
the filter text, returning the expanded text or a located error; cyclic
macro definitions are detected by the visited-set check and reported with
the dedicated recursion error instead of looping. -/
def dfilter_expand (ms : MacroTable) (expr : List Char) :
    Except MacroErr (List Char) :=
  expandCh ms (expandFuel ms expr) [] expr 0
/-- Modelled from the spec: the lexer's token kinds — identifiers
(dotted field names), integer and string literals, comparison operators,
the `contains` / `matches` / `in` keywords, punctuation and the logical
operators. -/
inductive Tok where
  | ident (s : List Char)
  | intLit (n : Int)
  | strLit (s : List Char)
  | cmp (op : OrdOp)
  | kwContains
  | kwMatches
  | kwIn
  | lparen
  | rparen
  | lbrace
  | rbrace
  | comma
  | tokAnd
  | tokOr
  | tokNot
deriving DecidableEq, Repr

/-- Modelled from the spec: lexical errors — an illegal character or an
unterminated string literal, each with its source position. -/
inductive LexErr where
  | badChar (c : Char) (pos : Nat)
  | unterminated (pos : Nat)
deriving DecidableEq, Repr

/-- Whitespace characters (discardable, carry no token). -/
def isWS (c : Char) : Bool :=
  c == ' ' || c == '\t' || c == '\n' || c == '\r'

/-- Decimal digit? -/
def isDigit (c : Char) : Bool := '0' ≤ c && c ≤ '9'

/-- Identifier head character? -/
def isAlpha (c : Char) : Bool :=
  ('a' ≤ c && c ≤ 'z') || ('A' ≤ c && c ≤ 'Z') || c == '_'

/-- Identifier continuation character (dotted names allowed)? -/
def isIdentCh (c : Char) : Bool := isAlpha c || isDigit c || c == '.'

/-- Take the longest identifier run. -/
def takeIdent : List Char → (List Char × List Char)
  | [] => ([], [])
  | c :: t =>
      if isIdentCh c then
        match takeIdent t with
        | (a, r) => (c :: a, r)
      else ([], c :: t)

/-- Take the longest digit run. -/
def takeDigits : List Char → (List Char × List Char)
  | [] => ([], [])
  | c :: t =>
      if isDigit c then
        match takeDigits t with
        | (a, r) => (c :: a, r)
      else ([], c :: t)

/-- Take a string literal's characters up to the closing quote; `none`
when the literal is unterminated. -/
def takeStr : List Char → Option (List Char × List Char)
  | [] => none
  | c :: t =>
      if c = '"' then some ([], t)
      else
        match takeStr t with
        | none => none
        | some (a, r) => some (c :: a, r)

/-- Decimal value of a digit run. -/
def digitsToNat (ds : List Char) : Nat :=
  ds.foldl (fun a c => a * 10 + (c.toNat - '0'.toNat)) 0

/-- Keyword recognition on an identifier run. -/
def kwOf (s : List Char) : Tok :=
  if s = ['i', 'n'] then .kwIn
  else if s = ['c', 'o', 'n', 't', 'a', 'i', 'n', 's'] then .kwContains
  else if s = ['m', 'a', 't', 'c', 'h', 'e', 's'] then .kwMatches
  else .ident s

/-- Single- and double-character operator and punctuation tokens: returns
the token, the remaining input and the next position, or an
illegal-character error. -/
def lexSym (c : Char) (t : List Char) (pos : Nat) :
    Except LexErr (Tok × List Char × Nat) :=
  if c = '(' then .ok (.lparen, t, pos + 1)
  else if c = ')' then .ok (.rparen, t, pos + 1)
  else if c = '\x7b' then .ok (.lbrace, t, pos + 1)
  else if c = '\x7d' then .ok (.rbrace, t, pos + 1)
  else if c = ',' then .ok (.comma, t, pos + 1)
  else if c = '=' then
    match t with
    | '=' :: t2 => .ok (.cmp .eq, t2, pos + 2)
    | _ => .error (.badChar c pos)
  else if c = '!' then
    match t with
    | '=' :: t2 => .ok (.cmp .ne, t2, pos + 2)
    | _ => .ok (.tokNot, t, pos + 1)
  else if c = '<' then
    match t with
    | '=' :: t2 => .ok (.cmp .le, t2, pos + 2)
    | _ => .ok (.cmp .lt, t, pos + 1)
  else if c = '>' then
    match t with
    | '=' :: t2 => .ok (.cmp .ge, t2, pos + 2)
    | _ => .ok (.cmp .gt, t, pos + 1)
  else if c = '&' then
    match t with
    | '&' :: t2 => .ok (.tokAnd, t2, pos + 2)
    | _ => .error (.badChar c pos)
  else if c = '|' then
    match t with
    | '|' :: t2 => .ok (.tokOr, t2, pos + 2)
    | _ => .error (.badChar c pos)
  else .error (.badChar c pos)

/-- Modelled from the spec: the lexing loop — skip whitespace, recognize
identifiers/keywords, decimal integer literals, quoted string literals,
operators and punctuation, and report an illegal character or an
unterminated literal as a located lexical error.  `fuel` decreases every
step; the entry point supplies one unit per input character plus one. -/
def lexLoop : Nat → List Char → Nat → Except LexErr (List (Tok × Nat))
  | _, [], _ => .ok []
  | 0, _ :: _, pos => .error (.badChar ' ' pos)
  | f + 1, c :: t, pos =>
      if isWS c then lexLoop f t (pos + 1)
      else if isAlpha c then
        match takeIdent (c :: t) with
        | (a, r) =>
            match lexLoop f r (pos + a.length) with
            | .error e => .error e
            | .ok ts => .ok ((kwOf a, pos) :: ts)
      else if isDigit c then
        match takeDigits (c :: t) with
        | (a, r) =>
            match lexLoop f r (pos + a.length) with
            | .error e => .error e
            | .ok ts => .ok ((.intLit (Int.ofNat (digitsToNat a)), pos) :: ts)
      else if c = '"' then
        match takeStr t with
        | none => .error (.unterminated pos)
        | some (a, r) =>
            match lexLoop f r (pos + a.length + 2) with
            | .error e => .error e
            | .ok ts => .ok ((.strLit a, pos) :: ts)
      else
        match lexSym c t pos with
        | .error e => .error e
        | .ok (tok, rest, pos2) =>
            match lexLoop f rest pos2 with
            | .error e => .error e
            | .ok ts => .ok ((tok, pos) :: ts)

/-- Modelled from the spec: tokenize the (expanded) filter text into a
finite token sequence with source positions, or fail with a located
lexical error. -/
def lexText (cs : List Char) : Except LexErr (List (Tok × Nat)) :=
  lexLoop (cs.length + 1) cs 0
/-- Modelled from the spec: an untyped leaf of the raw syntax tree — an
identifier (field name, resolved later) or a literal. -/
inductive RawVal where
  | ident (s : List Char)
  | intL (n : Int)
  | strL (s : List Char)
deriving DecidableEq, Repr

/-- Modelled from the spec: the raw (untyped) syntax tree built by the
parser: relational tests, set membership, and the logical combinators. -/
inductive RawNode where
  | test (l : RawVal) (op : CmpKind) (r : RawVal)
  | testIn (l : RawVal) (elems : List RawVal)
  | and (a b : RawNode)
  | or (a b : RawNode)
  | not (a : RawNode)
deriving DecidableEq, Repr

/-- Modelled from the spec: syntax errors, with the distinguished
"unexpected end of input" kind separate from the generic kind; each
carries a position. -/
inductive ParseErr where
  | unexpectedEnd (pos : Nat)
  | generic (pos : Nat)
deriving DecidableEq, Repr

/-- Parse one value (identifier or literal).  An exhausted token stream is
the distinguished premature-end error. -/
def parseVal (toks : List (Tok × Nat)) (ep : Nat) :
    Except ParseErr (RawVal × List (Tok × Nat)) :=
  match toks with
  | [] => .error (.unexpectedEnd ep)
  | (Tok.ident s, _) :: rest => .ok (.ident s, rest)
  | (Tok.intLit n, _) :: rest => .ok (.intL n, rest)
  | (Tok.strLit s, _) :: rest => .ok (.strL s, rest)
  | (_, p) :: _ => .error (.generic p)

/-- Parse the comma-separated value list of a set-membership test, up to
and including the closing brace. -/
def parseInList : Nat → List (Tok × Nat) → Nat →
    Except ParseErr (List RawVal × List (Tok × Nat))
  | 0, _, ep => .error (.generic ep)
  | f + 1, toks, ep =>
      match parseVal toks ep with
      | .error e => .error e
      | .ok (v, rest) =>
          match rest with
          | (Tok.comma, _) :: rest2 =>
              match parseInList f rest2 ep with
              | .error e => .error e
              | .ok (vs, rest3) => .ok (v :: vs, rest3)
          | (Tok.rbrace, _) :: rest2 => .ok ([v], rest2)
          | [] => .error (.unexpectedEnd ep)
          | (_, p) :: _ => .error (.generic p)

/-- Modelled from the spec: the atomic "test" production —
`value cmp_op value`, or `value in { value_list }`.  A token stream that
ends where a token is required is the distinguished premature-end
error. -/
def parseTest (toks : List (Tok × Nat)) (ep : Nat) :
    Except ParseErr (RawNode × List (Tok × Nat)) :=
  match parseVal toks ep with
  | .error e => .error e
  | .ok (v1, rest) =>
      match rest with
      | (Tok.cmp op, _) :: rest2 =>
          match parseVal rest2 ep with
          | .error e => .error e
          | .ok (v2, rest3) => .ok (.test v1 (.ord op) v2, rest3)
      | (Tok.kwContains, _) :: rest2 =>
          match parseVal rest2 ep with
          | .error e => .error e
          | .ok (v2, rest3) => .ok (.test v1 .contains v2, rest3)
      | (Tok.kwMatches, _) :: rest2 =>
          match parseVal rest2 ep with
          | .error e => .error e
          | .ok (v2, rest3) => .ok (.test v1 .matches v2, rest3)
      | (Tok.kwIn, _) :: rest2 =>
          match rest2 with
          | (Tok.lbrace, _) :: rest3 =>
              match parseInList (rest3.length + 1) rest3 ep with
              | .error e => .error e
              | .ok (vs, rest4) => .ok (.testIn v1 vs, rest4)
          | [] => .error (.unexpectedEnd ep)
          | (_, p) :: _ => .error (.generic p)
      | [] => .error (.unexpectedEnd ep)
      | (_, p) :: _ => .error (.generic p)

/-- Precedence level of the expression parser: logical OR (lowest),
logical AND, then unary negation / parentheses / tests. -/
inductive PLvl where
  | orL
  | andL
  | unL
deriving DecidableEq, Repr

/-- Modelled from the spec: the recursive-descent expression parser with
the spec's precedence (OR below AND below unary negation); parenthesized
subexpressions override precedence.  `fuel` decreases every step; the
entry point supplies enough for any token stream. -/
def parseE : Nat → PLvl → List (Tok × Nat) → Nat →
    Except ParseErr (RawNode × List (Tok × Nat))
  | 0, _, _, ep => .error (.generic ep)
  | f + 1, .orL, toks, ep =>
      match parseE f .andL toks ep with
      | .error e => .error e
      | .ok (a, rest) =>
          match rest with
          | (Tok.tokOr, _) :: rest2 =>
              match parseE f .orL rest2 ep with
              | .error e => .error e
              | .ok (b, rest3) => .ok (.or a b, rest3)
          | _ => .ok (a, rest)
  | f + 1, .andL, toks, ep =>
      match parseE f .unL toks ep with
      | .error e => .error e
      | .ok (a, rest) =>
          match rest with
          | (Tok.tokAnd, _) :: rest2 =>
              match parseE f .andL rest2 ep with
              | .error e => .error e
              | .ok (b, rest3) => .ok (.and a b, rest3)
          | _ => .ok (a, rest)
  | f + 1, .unL, toks, ep =>
      match toks with
      | (Tok.tokNot, _) :: rest =>
          match parseE f .unL rest ep with
          | .error e => .error e
          | .ok (a, rest2) => .ok (.not a, rest2)
      | (Tok.lparen, _) :: rest =>
          match parseE f .orL rest ep with
          | .error e => .error e
          | .ok (a, (Tok.rparen, _) :: rest2) => .ok (a, rest2)
          | .ok (_, []) => .error (.unexpectedEnd ep)
          | .ok (_, (_, p2) :: _) => .error (.generic p2)
      | _ => parseTest toks ep

/-- Modelled from the spec: parse a non-empty token stream into one raw
syntax tree covering the whole input, or fail with a located syntax
error; `ep` is the position reported for a premature end of input. -/
def parseToks (toks : List (Tok × Nat)) (ep : Nat) : Except ParseErr RawNode :=
  match parseE (3 * toks.length + 8) .orL toks ep with
  | .error e => .error e
  | .ok (a, []) => .ok a
  | .ok (_, (_, p) :: _) => .error (.generic p)
/-- Modelled from the spec: the closed tagged-variant enumeration of field
value types, with per-variant capabilities checked once at resolution
time. -/
inductive FType where
  | ftInt
  | ftBool
  | ftString
  | ftBytes
deriving DecidableEq, Repr

/-- Modelled from the spec: a field descriptor of the external registry —
textual name, stable identifier, value type, parent-protocol identifier,
and the deprecation flag driving non-fatal warnings. -/
structure FieldDesc where
  name : List Char
  id : Nat
  ftype : FType
  parent : Nat
  deprecated : Bool
deriving DecidableEq, Repr

/-- Modelled from the spec: the external field registry, consumed only
through name lookups. -/
abbrev Registry := List FieldDesc

/-- Look a field name up in the registry. -/
def lookupField (reg : Registry) (s : List Char) : Option FieldDesc :=
  match reg with
  | [] => none
  | fd :: t => if fd.name = s then some fd else lookupField t s

/-- Look a field identifier up in the registry. -/
def lookupFieldById (reg : Registry) (i : Nat) : Option FieldDesc :=
  match reg with
  | [] => none
  | fd :: t => if fd.id = i then some fd else lookupFieldById t i

/-- Modelled from the spec: semantic errors — unknown field name, a
literal incompatible with the referenced field's type, and an operator
not applicable to the operand (each naming the offending text). -/
inductive SemErr where
  | unknownField (s : List Char)
  | typeMismatch (s : List Char)
  | badOperand (s : List Char)
deriving DecidableEq, Repr

/-- The value type of a literal leaf (`none` for identifiers). -/
def litType : RawVal → Option FType
  | .ident _ => none
  | .intL _ => some .ftInt
  | .strL _ => some .ftString

/-- The value a literal leaf denotes. -/
def litToFV : RawVal → FValue
  | .ident _ => .int 0
  | .intL n => .int n
  | .strL s => .str s

/-- Textual rendering of a raw leaf, used to name it in errors. -/
def rawValName : RawVal → List Char
  | .ident s => s
  | .intL _ => ['#']
  | .strL s => s

/-- The deprecation notices produced by one use of a field. -/
def depsOf (fd : FieldDesc) : List (List Char) :=
  if fd.deprecated then [fd.name] else []

/-- Is the comparison kind applicable to the field's type?  Equality and
ordering apply to every type; "contains" is restricted to string-like and
byte-sequence types; "matches" to string-like types. -/
def opApplicable (op : CmpKind) (ft : FType) : Bool :=
  match op with
  | .ord _ => true
  | .contains => ft == .ftString || ft == .ftBytes
  | .matches => ft == .ftString

/-- Modelled from the spec: the semantic resolver — resolve every
field-reference leaf against the registry (unknown names are errors
naming the identifier), type-check literals against the referenced
field's type, validate operator applicability per value type, require
every set element of a membership test to be independently compatible,
and collect non-fatal deprecation notices for deprecated field names
instead of aborting. -/
def resolve (reg : Registry) : RawNode →
    Except SemErr (STNode × List (List Char))
  | .test (RawVal.ident s) op r =>
      match lookupField reg s with
      | none => .error (.unknownField s)
      | some fd =>
          match r with
          | .ident s2 => .error (.badOperand s2)
          | lit =>
              match litType lit with
              | none => .error (.badOperand (rawValName lit))
              | some lt =>
                  if lt ≠ fd.ftype then .error (.typeMismatch (rawValName lit))
                  else if ¬ opApplicable op fd.ftype then
                    .error (.badOperand fd.name)
                  else .ok (.test fd.id op (litToFV lit), depsOf fd)
  | .test l op (RawVal.ident s) =>
      match lookupField reg s with
      | none => .error (.unknownField s)
      | some fd =>
          match litType l with
          | none => .error (.badOperand (rawValName l))
          | some lt =>
              if lt ≠ fd.ftype then .error (.typeMismatch (rawValName l))
              else
                match op with
                | .ord oop => .ok (.testLF (litToFV l) oop fd.id, depsOf fd)
                | _ => .error (.badOperand (rawValName l))
  | .test l op r =>
      match litType l, litType r with
      | some lt, some rt =>
          if lt ≠ rt then .error (.typeMismatch (rawValName r))
          else if ¬ opApplicable op lt then .error (.badOperand (rawValName l))
          else .ok (.testLL (litToFV l) op (litToFV r), [])
      | _, _ => .error (.badOperand (rawValName l))
  | .testIn (RawVal.ident s) es =>
      match lookupField reg s with
      | none => .error (.unknownField s)
      | some fd =>
          if es.all (fun e => litType e == some fd.ftype) then
            .ok (.testIn fd.id (es.map litToFV), depsOf fd)
          else .error (.typeMismatch s)
  | .testIn l _ => .error (.badOperand (rawValName l))
  | .and a b =>
      match resolve reg a with
      | .error e => .error e
      | .ok (ta, da) =>
          match resolve reg b with
          | .error e => .error e
          | .ok (tb, db) => .ok (.and ta tb, da ++ db)
  | .or a b =>
      match resolve reg a with
      | .error e => .error e
      | .ok (ta, da) =>
          match resolve reg b with
          | .error e => .error e
          | .ok (tb, db) => .ok (.or ta tb, da ++ db)
  | .not a =>
      match resolve reg a with
      | .error e => .error e
      | .ok (ta, da) => .ok (.not ta, da)
/-- Decimal digit character of a value below ten. -/
def digitCh (n : Nat) : Char := Char.ofNat ('0'.toNat + n)

/-- Decimal rendering helper (fuelled, one digit per unit). -/
def natCharsAux : Nat → Nat → List Char
  | 0, _ => []
  | f + 1, n => if n < 10 then [digitCh n] else natCharsAux f (n / 10) ++ [digitCh (n % 10)]

/-- Decimal rendering of a natural number. -/
def natChars (n : Nat) : List Char := natCharsAux (n + 1) n

/-- Decimal rendering of an integer. -/
def intChars (n : Int) : List Char :=
  if n < 0 then '-' :: natChars n.natAbs else natChars n.natAbs

/-- Textual rendering of a value, for the saved-tree diagnostic text. -/
def dumpFV : FValue → List Char
  | .int n => intChars n
  | .boolv b => if b then ['T'] else ['F']
  | .str s => '"' :: (s ++ ['"'])
  | .bytes bs => bs.foldr (fun b acc => ':' :: (natChars b ++ acc)) []

/-- Textual rendering of a comparison kind. -/
def dumpOp : CmpKind → List Char
  | .ord .eq => ['=', '=']
  | .ord .ne => ['!', '=']
  | .ord .lt => ['<']
  | .ord .gt => ['>']
  | .ord .le => ['<', '=']
  | .ord .ge => ['>', '=']
  | .contains => ['c', 'o', 'n', 't', 'a', 'i', 'n', 's']
  | .matches => ['m', 'a', 't', 'c', 'h', 'e', 's']

/-- Modelled from the spec: the textual dump of the (typed) syntax tree,
retained when tree saving is requested at compile time. -/
def dumpST : STNode → List Char
  | .constant b => if b then ['T'] else ['F']
  | .test fid op lit => natChars fid ++ dumpOp op ++ dumpFV lit
  | .testLF lit op fid => dumpFV lit ++ dumpOp (.ord op) ++ natChars fid
  | .testLL a op b => dumpFV a ++ dumpOp op ++ dumpFV b
  | .testIn fid es =>
      natChars fid ++ (' ' :: 'i' :: 'n' :: ' ' ::
        es.foldr (fun e acc => dumpFV e ++ (',' :: acc)) [])
  | .and a b => '(' :: (dumpST a ++ ('&' :: '&' :: dumpST b) ++ [')'])
  | .or a b => '(' :: (dumpST a ++ ('|' :: '|' :: dumpST b) ++ [')'])
  | .not a => '!' :: dumpST a

/-- From `dfilter.h`: save a textual representation of the syntax tree. -/
def DF_SAVE_TREE : Nat := 1 <<< 0

/-- From `dfilter.h`: perform macro substitution on the filter text. -/
def DF_EXPAND_MACROS : Nat := 1 <<< 1

/-- From `dfilter.h`: do an optimization pass on the compiled filter. -/
def DF_OPTIMIZE : Nat := 1 <<< 2

/-- From `dfilter.h`: enable debug trace for the lexer stage. -/
def DF_DEBUG_FLEX : Nat := 1 <<< 3

/-- From `dfilter.h`: enable debug trace for the parser stage. -/
def DF_DEBUG_LEMON : Nat := 1 <<< 4

/-- From `dfilter.h`: the generic error-kind code. -/
def DF_ERROR_GENERIC : Int := -1

/-- From `dfilter.h`: the distinguished unexpected-end-of-input error
code. -/
def DF_ERROR_UNEXPECTED_END : Int := -2

/-- From `dfilter.h` (`df_error_t`): a structured compile error — an
error-kind code, a human-readable message, and a location in the filter
text. -/
structure df_error_t where
  code : Int
  msg : List Char
  loc : Option Nat
deriving DecidableEq, Repr

/-- Mapping of a macro-expansion failure onto the structured error. -/
def errOfMacro : MacroErr → df_error_t
  | .unknown nm p => { code := DF_ERROR_GENERIC, msg := 'u' :: ':' :: nm, loc := some p }
  | .recursion nm p => { code := DF_ERROR_GENERIC, msg := 'r' :: ':' :: nm, loc := some p }
  | .badSyntax p => { code := DF_ERROR_GENERIC, msg := ['$'], loc := some p }
  | .tooDeep p => { code := DF_ERROR_GENERIC, msg := ['d'], loc := some p }

/-- Mapping of a lexical failure onto the structured error. -/
def errOfLex : LexErr → df_error_t
  | .badChar c p => { code := DF_ERROR_GENERIC, msg := ['c', c], loc := some p }
  | .unterminated p => { code := DF_ERROR_GENERIC, msg := ['"'], loc := some p }

/-- Mapping of a syntax failure onto the structured error: the premature
end of input gets its own distinguished code. -/
def errOfParse : ParseErr → df_error_t
  | .unexpectedEnd p =>
      { code := DF_ERROR_UNEXPECTED_END, msg := ['e', 'o', 'f'], loc := some p }
  | .generic p => { code := DF_ERROR_GENERIC, msg := ['s', 'y', 'n'], loc := some p }

/-- Mapping of a semantic failure onto the structured error, naming the
offending text in the message. -/
def errOfSem : SemErr → df_error_t
  | .unknownField s => { code := DF_ERROR_GENERIC, msg := 'f' :: ':' :: s, loc := some 0 }
  | .typeMismatch s => { code := DF_ERROR_GENERIC, msg := 't' :: ':' :: s, loc := some 0 }
  | .badOperand s => { code := DF_ERROR_GENERIC, msg := 'o' :: ':' :: s, loc := some 0 }

/-- From `dfilter.h` (`struct epan_dfilter`, opaque to callers): the
compiled program — bytecode, register count, verdict register, the field
and parent-protocol identifiers the program reads, deprecation notices
and warnings, and the diagnostic texts.  Immutable once built. -/
structure DFilter where
  insns : List Instr
  numRegs : Nat
  verdictReg : Nat
  interesting : List Nat
  protos : List Nat
  deprecated : List (List Char)
  warnings : List (List Char)
  expandedText : List Char
  treeStr : Option (List Char)
deriving DecidableEq, Repr

/-- Modelled from the spec: the result of one compilation, in the
out-parameter style of `dfilter_compile_full`: the boolean return value,
the `dfilter_t*` delivered through `dfp` (null for the null program), and
the structured error delivered through the error out-parameter. -/
structure CompileResult where
  ok : Bool
  dfp : Option DFilter
  err : Option df_error_t
deriving DecidableEq, Repr

/-- The field identifiers read by a compiled program, recorded per
"read field" instruction. -/
def interestingOf (code : List Instr) : List Nat :=
  code.filterMap (fun i =>
    match i with
    | .readF fid _ => some fid
    | _ => none)

/-- The parent-protocol identifiers of the fields a program reads. -/
def protosOf (reg : Registry) (fids : List Nat) : List Nat :=
  fids.filterMap (fun i => (lookupFieldById reg i).map (fun fd => fd.parent))

/-- A successful compilation result. -/
def compOk (dfp : Option DFilter) : CompileResult :=
  { ok := true, dfp := dfp, err := none }

/-- A failed compilation result: no program is delivered. -/
def compErr (e : df_error_t) : CompileResult :=
  { ok := false, dfp := none, err := some e }

/-- Modelled from the spec and the `dfilter_compile_full` contract in
`dfilter.h`: compile filter text under a flag set.  Macro expansion and
optimization are flag-gated; an empty (all-whitespace) token stream is the
valid null filter, delivered as a null program with a true return; any
stage failure returns false with a structured located error and no
program. -/
def dfilter_compile_full (ms : MacroTable) (reg : Registry)
    (text : List Char) (flags : Nat) : CompileResult :=
  match (if flags &&& DF_EXPAND_MACROS ≠ 0 then dfilter_expand ms text
         else .ok text) with
  | .error e => compErr (errOfMacro e)
  | .ok cs =>
      match lexText cs with
      | .error e => compErr (errOfLex e)
      | .ok toks =>
          if toks.isEmpty then compOk none
          else
            match parseToks toks cs.length with
            | .error e => compErr (errOfParse e)
            | .ok raw =>
                match resolve reg raw with
                | .error e => compErr (errOfSem e)
                | .ok (tt, deps) =>
                    match gen (if flags &&& DF_OPTIMIZE ≠ 0 then optimize tt
                               else tt) 0 with
                    | (code, res, nregs) =>
                        compOk (some {
                          insns := code,
                          numRegs := nregs,
                          verdictReg := res,
                          interesting := interestingOf code,
                          protos := protosOf reg (interestingOf code),
                          deprecated := deps,
                          warnings := deps,
                          expandedText := cs,
                          treeStr :=
                            if flags &&& DF_SAVE_TREE ≠ 0 then some (dumpST tt)
                            else none })

/-- From `dfilter.h`: the convenience entry point — compile with macro
expansion and optimization enabled and everything else off. -/
def dfilter_compile (ms : MacroTable) (reg : Registry) (text : List Char) :
    CompileResult :=
  dfilter_compile_full ms reg text (DF_EXPAND_MACROS ||| DF_OPTIMIZE)

/-- The register file at the start of one evaluation. -/
def initRegs : RegFile := fun _ => .insts []

/-- Modelled from the spec: run a compiled program's bytecode against one
record's field instances and read the verdict register. -/
def dfvm_apply (df : DFilter) (r : Record) : Bool :=
  getBool (execInstrs r df.insns initRegs df.verdictReg)

/-- From `dfilter.h`: apply a compiled dfilter to a record's field-value
tree.  The null program (null filter) matches every record; evaluation
returns a bare boolean verdict and cannot fail. -/
def dfilter_apply : Option DFilter → Record → Bool
  | none, _ => true
  | some df, r => dfvm_apply df r

/-- From `dfilter.h`: apply a compiled dfilter to a dissection's
field-value tree; same evaluation as `dfilter_apply`. -/
def dfilter_apply_edt (df : Option DFilter) (r : Record) : Bool :=
  dfilter_apply df r

/-- From `dfilter.h` (const program): prime a record tree with the fields
the program reads; modelled in state-passing style so that the frame on
the program is explicit. -/
def dfilter_prime_proto_tree (df : DFilter) (tr : List Nat) :
    DFilter × List Nat :=
  (df, df.interesting ++ tr)

/-- From `dfilter.h` (const program): compute the references the program's
fields have in a record tree; modelled in state-passing style so that the
frame on the program is explicit. -/
def dfilter_load_field_references (df : DFilter) (r : Record) :
    DFilter × List (Nat × FValue) :=
  (df, r.filter (fun p => df.interesting.contains p.1))

/-- From `dfilter.h` (const program): is the program interested in a given
field identifier?  State-passing, with the program threaded through. -/
def dfilter_interested_in_field (df : DFilter) (hfid : Nat) :
    Bool × DFilter :=
  (df.interesting.contains hfid, df)

/-- From `dfilter.h` (const program): is the program interested in a field
whose parent is the given protocol?  State-passing, with the program
threaded through. -/
def dfilter_interested_in_proto (df : DFilter) (pid : Nat) :
    Bool × DFilter :=
  (df.protos.contains pid, df)

/-- From `dfilter.h`: the deprecated-token notices of a compiled
program. -/
def dfilter_deprecated_tokens (df : DFilter) : List (List Char) :=
  df.deprecated

/-- From `dfilter.h`: the non-fatal warnings of a compiled program. -/
def dfilter_get_warnings (df : DFilter) : List (List Char) :=
  df.warnings

/-- From `dfilter.h`: the filter text after macro expansion. -/
def dfilter_text (df : DFilter) : List Char :=
  df.expandedText
theorem takeName_closed {nm : List Char} (h : ('\x7d' : Char) ∉ nm) (rest : List Char) :
    takeName (nm ++ '\x7d' :: rest) = some (nm, rest) := by
  induction nm with
  | nil => simp [takeName]
  | cons c t ih =>
      have hc : c ≠ '\x7d' := fun hcc => h (hcc ▸ List.mem_cons_self c t)
      have ht : ('\x7d' : Char) ∉ t := fun hm => h (List.mem_cons_of_mem c hm)
      simp only [List.cons_append, takeName, if_neg hc, List.append_eq, ih ht]

theorem expandCh_invoke (ms : MacroTable) (f : Nat) (seen : List (List Char))
    (nm rest : List Char) (pos : Nat) (h : ('\x7d' : Char) ∉ nm) :
    expandCh ms (f + 1) seen ('$' :: '\x7b' :: (nm ++ '\x7d' :: rest)) pos
      = if nm ∈ seen then .error (.recursion nm pos)
        else
          match lookupMacro ms nm with
          | none => .error (.unknown nm pos)
          | some body =>
              match expandCh ms f (nm :: seen) body pos with
              | .error e => .error e
              | .ok eb =>
                  match expandCh ms f seen rest (pos + nm.length + 3) with
                  | .error e => .error e
                  | .ok er => .ok (eb ++ er) := by
  simp only [expandCh, takeName_closed h, if_true, reduceIte]

theorem two_le_expandFuel (ms : MacroTable) (expr : List Char) :
    2 ≤ expandFuel ms expr := by
  unfold expandFuel
  have h1 : 2 ≤ (ms.length + 1) * (bodiesSize ms + 2) := by
    have h2 : 1 * 2 ≤ (ms.length + 1) * (bodiesSize ms + 2) :=
      Nat.mul_le_mul (by omega) (by omega)
    omega
  omega

theorem length_lt_expandFuel (ms : MacroTable) (expr : List Char) :
    expr.length < expandFuel ms expr := by
  unfold expandFuel
  omega

theorem expandCh_no_dollar (ms : MacroTable) :
    ∀ (f : Nat) (seen : List (List Char)) (cs : List Char) (pos : Nat),
      ('$' : Char) ∉ cs → cs.length < f → expandCh ms f seen cs pos = .ok cs := by
  intro f
  induction f with
  | zero =>
      intro seen cs pos h hl
      exact absurd hl (Nat.not_lt_zero _)
  | succ f ih =>
      intro seen cs pos h hl
      cases cs with
      | nil => rfl
      | cons c t =>
          have hc : c ≠ '$' := fun hcc => h (hcc ▸ List.mem_cons_self c t)
          have ht : ('$' : Char) ∉ t := fun hm => h (List.mem_cons_of_mem c hm)
          have hl' : t.length < f := by
            simp only [List.length_cons] at hl
            omega
          simp only [expandCh, if_neg hc, ih seen t (pos + 1) ht hl']

theorem lexLoop_blank :
    ∀ (f : Nat) (cs : List Char) (pos : Nat),
      cs.all isWS = true → cs.length < f → lexLoop f cs pos = .ok [] := by
  intro f
  induction f with
  | zero =>
      intro cs pos h hl
      exact absurd hl (Nat.not_lt_zero _)
  | succ f ih =>
      intro cs pos h hl
      cases cs with
      | nil => rfl
      | cons c t =>
          rw [List.all_cons, Bool.and_eq_true] at h
          obtain ⟨hc, ht⟩ := h
          have hl' : t.length < f := by
            simp only [List.length_cons] at hl
            omega
          rw [lexLoop.eq_def]
          simp only [hc, if_true, reduceIte]
          exact ih t (pos + 1) ht hl'

theorem blank_compile (ms : MacroTable) (reg : Registry) (flags : Nat)
    (cs : List Char) (h : cs.all isWS = true) :
    dfilter_compile_full ms reg cs flags = compOk none := by
  have hnd : ('$' : Char) ∉ cs := by
    intro hm
    have := List.all_eq_true.mp h _ hm
    simp [isWS] at this
  have hexp : dfilter_expand ms cs = .ok cs :=
    expandCh_no_dollar ms (expandFuel ms cs) [] cs 0 hnd (length_lt_expandFuel ms cs)
  have hif : (if flags &&& DF_EXPAND_MACROS ≠ 0 then dfilter_expand ms cs
              else Except.ok cs) = Except.ok cs := by
    by_cases hf : flags &&& DF_EXPAND_MACROS ≠ 0
    · rw [if_pos hf, hexp]
    · rw [if_neg hf]
  have hlex : lexText cs = .ok [] :=
    lexLoop_blank (cs.length + 1) cs 0 h (Nat.lt_succ_self _)
  unfold dfilter_compile_full
  simp only [hif, hlex, List.isEmpty_nil, if_true, reduceIte]

theorem errOfMacro_shape (e : MacroErr) :
    (errOfMacro e).code = DF_ERROR_GENERIC ∧ (errOfMacro e).loc.isSome = true := by
  cases e <;> exact ⟨rfl, rfl⟩

theorem errOfLex_shape (e : LexErr) :
    (errOfLex e).code = DF_ERROR_GENERIC ∧ (errOfLex e).loc.isSome = true := by
  cases e <;> exact ⟨rfl, rfl⟩

theorem errOfParse_shape (e : ParseErr) :
    ((errOfParse e).code = DF_ERROR_GENERIC ∨
      (errOfParse e).code = DF_ERROR_UNEXPECTED_END) ∧
    (errOfParse e).loc.isSome = true := by
  cases e
  · exact ⟨Or.inr rfl, rfl⟩
  · exact ⟨Or.inl rfl, rfl⟩

theorem errOfSem_shape (e : SemErr) :
    (errOfSem e).code = DF_ERROR_GENERIC ∧ (errOfSem e).loc.isSome = true := by
  cases e <;> exact ⟨rfl, rfl⟩

theorem compile_shape (ms : MacroTable) (reg : Registry) (text : List Char)
    (flags : Nat) :
    (∃ d, dfilter_compile_full ms reg text flags = compOk d) ∨
    (∃ e, dfilter_compile_full ms reg text flags = compErr e ∧
      (e.code = DF_ERROR_GENERIC ∨ e.code = DF_ERROR_UNEXPECTED_END) ∧
      e.loc.isSome = true) := by
  unfold dfilter_compile_full
  split
  · rename_i e heq
    right
    exact ⟨errOfMacro e, rfl, Or.inl (errOfMacro_shape e).1, (errOfMacro_shape e).2⟩
  · rename_i cs heq
    split
    · rename_i e heq2
      right
      exact ⟨errOfLex e, rfl, Or.inl (errOfLex_shape e).1, (errOfLex_shape e).2⟩
    · rename_i toks heq2
      split
      · left; exact ⟨none, rfl⟩
      · split
        · rename_i e heq3
          right
          exact ⟨errOfParse e, rfl, (errOfParse_shape e).1, (errOfParse_shape e).2⟩
        · rename_i raw heq3
          split
          · rename_i e heq4
            right
            exact ⟨errOfSem e, rfl, Or.inl (errOfSem_shape e).1, (errOfSem_shape e).2⟩
          · rename_i tt deps heq4
            split
            rename_i code res nregs hg
            left
            exact ⟨_, rfl⟩

theorem compile_deprecated_ok (ms : MacroTable) (reg : Registry)
    (text cs : List Char) (flags : Nat) (toks : List (Tok × Nat))
    (raw : RawNode) (tt : STNode) (deps : List (List Char))
    (hexp : (if flags &&& DF_EXPAND_MACROS ≠ 0 then dfilter_expand ms text
             else Except.ok text) = Except.ok cs)
    (hlex : lexText cs = .ok toks)
    (hne : toks.isEmpty = false)
    (hparse : parseToks toks cs.length = .ok raw)
    (hres : resolve reg raw = .ok (tt, deps)) :
    (dfilter_compile_full ms reg text flags).ok = true ∧
    ∃ df, (dfilter_compile_full ms reg text flags).dfp = some df ∧
      dfilter_deprecated_tokens df = deps ∧ dfilter_get_warnings df = deps := by
  unfold dfilter_compile_full
  rcases hg : gen (if flags &&& DF_OPTIMIZE ≠ 0 then optimize tt else tt) 0
    with ⟨code, res, nregs⟩
  simp only [hexp, hlex, hne, Bool.false_eq_true, if_false, hparse, hres, hg, reduceIte]
  exact ⟨rfl, _, rfl, rfl, rfl⟩

/-- The compiled program of one typed tree alone, as built by the
bytecode-compiler stage. -/
def programOf (t : STNode) : DFilter :=
  match gen t 0 with
  | (code, res, nxt) =>
      { insns := code, numRegs := nxt, verdictReg := res,
        interesting := interestingOf code, protos := [], deprecated := [],
        warnings := [], expandedText := [], treeStr := none }

theorem dfvm_apply_programOf (t : STNode) (r : Record) :
    dfvm_apply (programOf t) r = evalNode r t := by
  rcases hg : gen t 0 with ⟨code, res, nxt⟩
  obtain ⟨-, -, -, heval⟩ := gen_ok t 0 code res nxt hg
  obtain ⟨hres, -⟩ := heval r initRegs
  unfold dfvm_apply programOf
  simp only [hg, hres]
  rfl

theorem readField_missing (r : Record) (fid : Nat)
    (h : ∀ p ∈ r, p.1 ≠ fid) : readField r fid = [] := by
  unfold readField
  rw [List.filter_eq_nil.mpr]
  · rfl
  · intro p hp
    simp [h p hp]
theorem expand_direct_recursion (ms : MacroTable) (nm brest trest : List Char)
    (hnm : ('\x7d' : Char) ∉ nm)
    (hlook : lookupMacro ms nm = some ('$' :: '\x7b' :: (nm ++ '\x7d' :: brest))) :
    dfilter_expand ms ('$' :: '\x7b' :: (nm ++ '\x7d' :: trest))
      = .error (.recursion nm 0) := by
  unfold dfilter_expand
  obtain ⟨f2, hf⟩ :
      ∃ f2, expandFuel ms ('$' :: '\x7b' :: (nm ++ '\x7d' :: trest)) = f2 + 2 := by
    have := two_le_expandFuel ms ('$' :: '\x7b' :: (nm ++ '\x7d' :: trest))
    exact ⟨expandFuel ms ('$' :: '\x7b' :: (nm ++ '\x7d' :: trest)) - 2, by omega⟩
  rw [hf]
  rw [show f2 + 2 = (f2 + 1) + 1 from rfl]
  rw [expandCh_invoke ms (f2 + 1) [] nm trest 0 hnm]
  rw [if_neg (List.not_mem_nil nm), hlook]
  have hm : nm ∈ [nm] := List.mem_singleton.mpr rfl
  simp only [expandCh_invoke ms f2 [nm] nm brest 0 hnm, if_pos hm]

/-- C1: for every compiled program and record tree, evaluation returns a
plain boolean verdict with no error channel; when the record lacks any
instance of a referenced field, the field read yields the empty instance
set and every comparison (relational or set membership) against it
evaluates to false — at the tree semantics and at the bytecode level. -/
theorem claim_eval_total_missing_field_false :
    ∀ (r : Record) (fid : Nat), (∀ p ∈ r, p.1 ≠ fid) →
      readField r fid = [] ∧
      (∀ op lit, evalNode r (.test fid op lit) = false) ∧
      (∀ es, evalNode r (.testIn fid es) = false) ∧
      (∀ (ρ : RegFile) (dst : Nat), step r ρ (.readF fid dst) dst = .insts []) ∧
      (∀ (ρ : RegFile) (src : Nat) (op : CmpKind) (lit : FValue) (dst : Nat),
        getInsts (ρ src) = [] → step r ρ (.cmpC op src lit dst) dst = .boolv false) ∧
      (∀ (ρ : RegFile) (src : Nat) (es : List FValue) (dst : Nat),
        getInsts (ρ src) = [] → step r ρ (.cmpIn src es dst) dst = .boolv false) ∧
      (∀ (df : Option DFilter), dfilter_apply df r = true ∨ dfilter_apply df r = false) := by
  intro r fid h
  have hrf := readField_missing r fid h
  refine ⟨hrf, ?_, ?_, ?_, ?_, ?_, ?_⟩
  · intro op lit
    show (readField r fid).any (fun v => cmpPrim op v lit) = false
    rw [hrf]
    rfl
  · intro es
    show (readField r fid).any (fun v => es.any (fun e => fvEq v e)) = false
    rw [hrf]
    rfl
  · intro ρ dst
    show setReg ρ dst (.insts (readField r fid)) dst = .insts []
    rw [setReg_same, hrf]
  · intro ρ src op lit dst hsrc
    show setReg ρ dst (.boolv ((getInsts (ρ src)).any (fun v => cmpPrim op v lit))) dst
          = .boolv false
    rw [setReg_same, hsrc]
    rfl
  · intro ρ src es dst hsrc
    show setReg ρ dst
          (.boolv ((getInsts (ρ src)).any (fun v => es.any (fun e => fvEq v e)))) dst
          = .boolv false
    rw [setReg_same, hsrc]
    rfl
  · intro df
    cases hb : dfilter_apply df r
    · exact Or.inr rfl
    · exact Or.inl rfl

theorem claim_eval_total_missing_field_false_witness :
    readField [(2, FValue.int 5)] 1 = [] ∧
    evalNode [(2, FValue.int 5)] (.test 1 (.ord .eq) (.int 5)) = false :=
  ⟨(claim_eval_total_missing_field_false [(2, FValue.int 5)] 1 (by decide)).1,
   (claim_eval_total_missing_field_false [(2, FValue.int 5)] 1 (by decide)).2.1
      (.ord .eq) (.int 5)⟩

/-- C2: a relational comparison of a field against a value is true exactly
when at least one instance in the fetched instance set satisfies the
comparison, and set membership is true exactly when some instance equals
some set element (existential quantification over instances). -/
theorem claim_multi_instance_existential :
    ∀ (r : Record) (fid : Nat) (op : CmpKind) (lit : FValue) (es : List FValue),
      (evalNode r (.test fid op lit) = true ↔
        ∃ v ∈ readField r fid, cmpPrim op v lit = true) ∧
      (evalNode r (.testIn fid es) = true ↔
        ∃ v ∈ readField r fid, ∃ e ∈ es, fvEq v e = true) := by
  intro r fid op lit es
  constructor
  · simp [evalNode, List.any_eq_true]
  · simp [evalNode, List.any_eq_true]

/-- C3: every empty or all-whitespace input compiles successfully to the
null program (a true return with a null `dfilter_t*`), and the null
program matches every record. -/
theorem claim_blank_null_filter :
    ∀ (ms : MacroTable) (reg : Registry) (cs : List Char) (flags : Nat),
      cs.all isWS = true →
      dfilter_compile_full ms reg cs flags = compOk none ∧
      (dfilter_compile_full ms reg cs flags).ok = true ∧
      (dfilter_compile_full ms reg cs flags).dfp = none ∧
      (∀ r : Record, dfilter_apply none r = true) := by
  intro ms reg cs flags h
  have hc := blank_compile ms reg flags cs h
  refine ⟨hc, ?_, ?_, fun _ => rfl⟩
  · rw [hc]
    rfl
  · rw [hc]
    rfl

theorem claim_blank_null_filter_witness :
    dfilter_compile_full [] [] [' ', '\t'] 7 = compOk none ∧
    dfilter_apply none [(1, FValue.int 3)] = true :=
  ⟨(claim_blank_null_filter [] [] [' ', '\t'] 7 (by decide)).1,
   (claim_blank_null_filter [] [] [' ', '\t'] 7 (by decide)).2.2.2 [(1, FValue.int 3)]⟩

/-- C4: the optimizer is idempotent and semantics-preserving — optimizing
twice equals optimizing once, and the optimized tree evaluates to the same
verdict as the original on every record, both at the tree semantics and
through the compiled bytecode. -/
theorem claim_optimize_idem_preserving :
    ∀ t : STNode,
      optimize (optimize t) = optimize t ∧
      (∀ r : Record, evalNode r (optimize t) = evalNode r t) ∧
      (∀ r : Record,
        dfvm_apply (programOf (optimize t)) r = dfvm_apply (programOf t) r) := by
  intro t
  refine ⟨optimize_idem t, fun r => optimize_preserves r t, fun r => ?_⟩
  rw [dfvm_apply_programOf, dfvm_apply_programOf, optimize_preserves]

/-- C5: `dfilter_compile_full` either succeeds — true return, no error —
or fails with a null `dfilter_t*` and a structured error carrying one of
the error-kind codes and a location; a failed compilation never delivers
a program. -/
theorem claim_compile_dichotomy :
    ∀ (ms : MacroTable) (reg : Registry) (text : List Char) (flags : Nat),
      ((dfilter_compile_full ms reg text flags).ok = true →
        (dfilter_compile_full ms reg text flags).err = none) ∧
      ((dfilter_compile_full ms reg text flags).ok = false →
        (dfilter_compile_full ms reg text flags).dfp = none ∧
        ∃ e, (dfilter_compile_full ms reg text flags).err = some e ∧
          (e.code = DF_ERROR_GENERIC ∨ e.code = DF_ERROR_UNEXPECTED_END) ∧
          e.loc.isSome = true) := by
  intro ms reg text flags
  rcases compile_shape ms reg text flags with ⟨d, hd⟩ | ⟨e, he, hcode, hloc⟩
  · rw [hd]
    exact ⟨fun _ => rfl, fun hfalse => Bool.noConfusion hfalse⟩
  · rw [he]
    exact ⟨fun htrue => Bool.noConfusion htrue,
           fun _ => ⟨rfl, e, rfl, hcode, hloc⟩⟩

theorem claim_compile_dichotomy_witness :
    (dfilter_compile_full [] [] ['('] 0).dfp = none ∧
    (∃ e, (dfilter_compile_full [] [] ['('] 0).err = some e ∧
      (e.code = DF_ERROR_GENERIC ∨ e.code = DF_ERROR_UNEXPECTED_END) ∧
      e.loc.isSome = true) ∧
    (dfilter_compile_full [] [] [' '] 0).err = none := by
  have h1 := (claim_compile_dichotomy [] [] ['('] 0).2 (by decide)
  have h2 := (claim_compile_dichotomy [] [] [' '] 0).1 (by decide)
  exact ⟨h1.1, h1.2, h2⟩

/-- C6: the premature-end-of-input syntax failure is reported with the
distinguished `DF_ERROR_UNEXPECTED_END` code, which differs from
`DF_ERROR_GENERIC`, and exactly the premature-end failures get that code;
concrete compilations exhibit both codes. -/
theorem claim_unexpected_end_distinct :
    ((DF_ERROR_UNEXPECTED_END == DF_ERROR_GENERIC) = false) ∧
    (∀ e : ParseErr, (errOfParse e).code = DF_ERROR_UNEXPECTED_END ↔
        ∃ p, e = .unexpectedEnd p) ∧
    (∀ ep : Nat, parseVal [] ep = .error (.unexpectedEnd ep)) ∧
    (dfilter_compile_full [] [] ['a', ' ', '=', '='] 0).err
      = some { code := DF_ERROR_UNEXPECTED_END, msg := ['e', 'o', 'f'], loc := some 4 } ∧
    (dfilter_compile_full [] [] [')'] 0).err
      = some { code := DF_ERROR_GENERIC, msg := ['s', 'y', 'n'], loc := some 0 } := by
  refine ⟨by decide, ?_, fun ep => rfl, by decide, by decide⟩
  intro e
  cases e with
  | unexpectedEnd p => exact ⟨fun _ => ⟨p, rfl⟩, fun _ => rfl⟩
  | generic p =>
      constructor
      · intro hcode
        rw [show (errOfParse (.generic p)).code = DF_ERROR_GENERIC from rfl] at hcode
        exact absurd hcode (by decide)
      · rintro ⟨p', hp⟩
        exact ParseErr.noConfusion hp

theorem expandCh_nil (ms : MacroTable) (f : Nat) (seen : List (List Char)) (pos : Nat) :
    expandCh ms f seen [] pos = .ok [] := by
  cases f <;> rfl

theorem expandCh_plain (ms : MacroTable) (f : Nat) (seen : List (List Char))
    {c : Char} (t : List Char) (pos : Nat) (hc : c ≠ '$') :
    expandCh ms (f + 1) seen (c :: t) pos
      = match expandCh ms f seen t (pos + 1) with
        | .error e => .error e
        | .ok et => .ok (c :: et) := by
  simp only [expandCh, if_neg hc]

theorem expandCh_dollar_nil (ms : MacroTable) (f : Nat) (seen : List (List Char))
    (pos : Nat) :
    expandCh ms (f + 1) seen ['$'] pos = .ok ['$'] := by
  simp only [expandCh, reduceIte, expandCh_nil]

theorem expandCh_dollar_nonbrace (ms : MacroTable) (f : Nat)
    (seen : List (List Char)) {d : Char} (t2 : List Char) (pos : Nat)
    (hd : d ≠ '\x7b') :
    expandCh ms (f + 1) seen ('$' :: d :: t2) pos
      = match expandCh ms f seen (d :: t2) (pos + 1) with
        | .error e => .error e
        | .ok et => .ok ('$' :: et) := by
  simp only [expandCh, if_neg hd, reduceIte]

theorem expandCh_dollar_brace (ms : MacroTable) (f : Nat)
    (seen : List (List Char)) (t2 : List Char) (pos : Nat) :
    expandCh ms (f + 1) seen ('$' :: '\x7b' :: t2) pos
      = match takeName t2 with
        | none => .error (.badSyntax pos)
        | some (nm, rest) =>
            if nm ∈ seen then .error (.recursion nm pos)
            else
              match lookupMacro ms nm with
              | none => .error (.unknown nm pos)
              | some body =>
                  match expandCh ms f (nm :: seen) body pos with
                  | .error e => .error e
                  | .ok eb =>
                      match expandCh ms f seen rest (pos + nm.length + 3) with
                      | .error e => .error e
                      | .ok er => .ok (eb ++ er) := by
  simp only [expandCh, reduceIte]

theorem takeName_length :
    ∀ (t nm rest : List Char), takeName t = some (nm, rest) → rest.length < t.length := by
  intro t
  induction t with
  | nil =>
      intro nm rest h
      exact absurd h (by simp [takeName])
  | cons c t' ih =>
      intro nm rest h
      by_cases hc : c = '\x7d'
      · subst hc
        simp only [takeName, reduceIte, Option.some.injEq, Prod.mk.injEq] at h
        obtain ⟨h1, h2⟩ := h
        subst h2
        simp [List.length_cons]
      · simp only [takeName, if_neg hc] at h
        cases htn : takeName t' with
        | none =>
            rw [htn] at h
            exact absurd h (by simp)
        | some pr =>
            rcases pr with ⟨nm', rest'⟩
            rw [htn] at h
            simp only [Option.some.injEq, Prod.mk.injEq] at h
            obtain ⟨h1, h2⟩ := h
            have hlen := ih nm' rest' htn
            have hEq := congrArg List.length h2
            simp only [List.length_cons]
            omega

theorem lookupMacro_mem_names :
    ∀ (ms : MacroTable) (nm body : List Char),
      lookupMacro ms nm = some body → nm ∈ ms.map Prod.fst := by
  intro ms
  induction ms with
  | nil =>
      intro nm body h
      exact absurd h (by simp [lookupMacro])
  | cons p t ih =>
      intro nm body h
      rcases p with ⟨k, v⟩
      simp only [lookupMacro] at h
      by_cases hk : k = nm
      · subst hk
        simp
      · rw [if_neg hk] at h
        exact List.mem_cons_of_mem _ (ih nm body h)

theorem bodiesSize_foldl_init :
    ∀ (ms : MacroTable) (init : Nat),
      ms.foldl (fun a p => a + p.2.length + 2) init
        = init + ms.foldl (fun a p => a + p.2.length + 2) 0 := by
  intro ms
  induction ms with
  | nil => intro init; simp
  | cons p t ih =>
      intro init
      simp only [List.foldl_cons]
      rw [ih (init + p.2.length + 2), ih (0 + p.2.length + 2)]
      omega

theorem lookupMacro_body_size :
    ∀ (ms : MacroTable) (nm body : List Char),
      lookupMacro ms nm = some body → body.length + 2 ≤ bodiesSize ms := by
  intro ms
  induction ms with
  | nil =>
      intro nm body h
      exact absurd h (by simp [lookupMacro])
  | cons p t ih =>
      intro nm body h
      rcases p with ⟨k, v⟩
      have hbs : bodiesSize ((k, v) :: t) = v.length + 2 + bodiesSize t := by
        unfold bodiesSize
        simp only [List.foldl_cons]
        rw [bodiesSize_foldl_init t (0 + v.length + 2)]
        omega
      simp only [lookupMacro] at h
      by_cases hk : k = nm
      · rw [if_pos hk] at h
        injection h with h
        subst h
        omega
      · rw [if_neg hk] at h
        have := ih nm body h
        omega

/-- Table names not yet on the expansion path: the count that decreases
each time the expander enters a macro body. -/
def unseenCount (ms : MacroTable) (seen : List (List Char)) : Nat :=
  ((ms.map Prod.fst).filter (fun n => decide (n ∉ seen))).length

/-- The fuel an expansion of `cs` with visited set `seen` can consume at
most: one unit per character plus one, plus one body's worth of work per
table name not yet visited. -/
def expandNeed (ms : MacroTable) (seen : List (List Char)) (cs : List Char) : Nat :=
  cs.length + 1 + unseenCount ms seen * (bodiesSize ms + 2)

theorem filter_notmem_cons_le
    (l : List (List Char)) (nm : List Char) (seen : List (List Char)) :
    (l.filter (fun n => decide (n ∉ nm :: seen))).length
      ≤ (l.filter (fun n => decide (n ∉ seen))).length := by
  induction l with
  | nil => simp
  | cons x t ih =>
      rw [List.filter_cons, List.filter_cons]
      by_cases hx1 : x ∉ nm :: seen
      · have hx2 : x ∉ seen := fun hm => hx1 (List.mem_cons_of_mem nm hm)
        rw [if_pos (decide_eq_true hx1), if_pos (decide_eq_true hx2)]
        simp only [List.length_cons]
        omega
      · rw [if_neg (by simpa using hx1)]
        by_cases hx2 : x ∉ seen
        · rw [if_pos (decide_eq_true hx2)]
          simp only [List.length_cons]
          omega
        · rw [if_neg (by simpa using hx2)]
          exact ih

theorem filter_notmem_cons_lt
    (l : List (List Char)) (nm : List Char) (seen : List (List Char))
    (hmem : nm ∈ l) (hns : nm ∉ seen) :
    (l.filter (fun n => decide (n ∉ nm :: seen))).length + 1
      ≤ (l.filter (fun n => decide (n ∉ seen))).length := by
  induction l with
  | nil => exact absurd hmem (List.not_mem_nil nm)
  | cons x t ih =>
      rw [List.filter_cons, List.filter_cons]
      by_cases hx : x = nm
      · subst hx
        rw [if_neg (by simp), if_pos (decide_eq_true hns)]
        simp only [List.length_cons]
        have hle := filter_notmem_cons_le t x seen
        omega
      · rcases List.mem_cons.mp hmem with heq | hmem'
        · exact absurd heq.symm hx
        · have ihh := ih hmem'
          by_cases hx1 : x ∉ nm :: seen
          · have hx2 : x ∉ seen := fun hm => hx1 (List.mem_cons_of_mem nm hm)
            rw [if_pos (decide_eq_true hx1), if_pos (decide_eq_true hx2)]
            simp only [List.length_cons]
            omega
          · rw [if_neg (by simpa using hx1)]
            by_cases hx2 : x ∉ seen
            · rw [if_pos (decide_eq_true hx2)]
              simp only [List.length_cons]
              omega
            · rw [if_neg (by simpa using hx2)]
              exact ihh

theorem unseenCount_decrease (ms : MacroTable) (nm body : List Char)
    (seen : List (List Char)) (hlm : lookupMacro ms nm = some body)
    (hns : nm ∉ seen) :
    unseenCount ms (nm :: seen) + 1 ≤ unseenCount ms seen := by
  unfold unseenCount
  exact filter_notmem_cons_lt (ms.map Prod.fst) nm seen
    (lookupMacro_mem_names ms nm body hlm) hns

theorem unseenCount_le_length (ms : MacroTable) (seen : List (List Char)) :
    unseenCount ms seen ≤ ms.length := by
  unfold unseenCount
  calc ((ms.map Prod.fst).filter (fun n => decide (n ∉ seen))).length
      ≤ (ms.map Prod.fst).length := List.length_filter_le _ _
    _ = ms.length := List.length_map _ _

theorem expandNeed_le_expandFuel (ms : MacroTable) (cs : List Char) :
    expandNeed ms [] cs ≤ expandFuel ms cs := by
  unfold expandNeed expandFuel
  have h := unseenCount_le_length ms []
  have h2 : unseenCount ms [] * (bodiesSize ms + 2)
      ≤ (ms.length + 1) * (bodiesSize ms + 2) :=
    Nat.mul_le_mul_right _ (by omega)
  omega

/-- Fuel adequacy: with at least `expandNeed` fuel, the expander never
trips its internal depth guard — the visited-set check catches every
cycle first. -/
theorem expandCh_no_tooDeep (ms : MacroTable) :
    ∀ (f : Nat) (seen : List (List Char)) (cs : List Char) (pos p : Nat),
      expandNeed ms seen cs ≤ f →
      expandCh ms f seen cs pos ≠ .error (.tooDeep p) := by
  intro f
  induction f with
  | zero =>
      intro seen cs pos p hneed
      unfold expandNeed at hneed
      omega
  | succ g ih =>
      intro seen cs pos p hneed
      cases cs with
      | nil =>
          rw [expandCh_nil]
          intro hcontra
          exact Except.noConfusion hcontra
      | cons c t =>
          by_cases hc : c = '$'
          · subst hc
            cases t with
            | nil =>
                rw [expandCh_dollar_nil]
                intro hcontra
                exact Except.noConfusion hcontra
            | cons d t2 =>
                by_cases hd : d = '\x7b'
                · subst hd
                  rw [expandCh_dollar_brace]
                  split
                  · intro hcontra
                    injection hcontra with h'
                    exact MacroErr.noConfusion h'
                  · rename_i nm rest htn
                    split
                    · intro hcontra
                      injection hcontra with h'
                      exact MacroErr.noConfusion h'
                    · rename_i hseen
                      split
                      · intro hcontra
                        injection hcontra with h'
                        exact MacroErr.noConfusion h'
                      · rename_i body hlm
                        have hmul := unseenCount_decrease ms nm body seen hlm hseen
                        have hbody := lookupMacro_body_size ms nm body hlm
                        have hmul2 : unseenCount ms (nm :: seen) * (bodiesSize ms + 2)
                              + (bodiesSize ms + 2)
                            ≤ unseenCount ms seen * (bodiesSize ms + 2) := by
                          have h3 := Nat.mul_le_mul_right (bodiesSize ms + 2) hmul
                          rw [Nat.succ_mul] at h3
                          exact h3
                        have hneed1 : expandNeed ms (nm :: seen) body ≤ g := by
                          unfold expandNeed at hneed ⊢
                          simp only [List.length_cons] at hneed
                          omega
                        have hrestlen := takeName_length t2 nm rest htn
                        have hneed2 : expandNeed ms seen rest ≤ g := by
                          unfold expandNeed at hneed ⊢
                          simp only [List.length_cons] at hneed
                          omega
                        split
                        · rename_i e hb
                          cases e with
                          | tooDeep pb => exact absurd hb (ih _ _ _ _ hneed1)
                          | unknown nm2 p2 =>
                              intro hcontra
                              injection hcontra with h'
                              exact MacroErr.noConfusion h'
                          | recursion nm2 p2 =>
                              intro hcontra
                              injection hcontra with h'
                              exact MacroErr.noConfusion h'
                          | badSyntax p2 =>
                              intro hcontra
                              injection hcontra with h'
                              exact MacroErr.noConfusion h'
                        · rename_i eb hb
                          split
                          · rename_i e hr
                            cases e with
                            | tooDeep pb => exact absurd hr (ih _ _ _ _ hneed2)
                            | unknown nm2 p2 =>
                                intro hcontra
                                injection hcontra with h'
                                exact MacroErr.noConfusion h'
                            | recursion nm2 p2 =>
                                intro hcontra
                                injection hcontra with h'
                                exact MacroErr.noConfusion h'
                            | badSyntax p2 =>
                                intro hcontra
                                injection hcontra with h'
                                exact MacroErr.noConfusion h'
                          · rename_i er hr
                            intro hcontra
                            exact Except.noConfusion hcontra
                · rw [expandCh_dollar_nonbrace ms g seen t2 pos hd]
                  have hneed' : expandNeed ms seen (d :: t2) ≤ g := by
                    unfold expandNeed at hneed ⊢
                    simp only [List.length_cons] at hneed ⊢
                    omega
                  split
                  · rename_i e hrec
                    cases e with
                    | tooDeep pb => exact absurd hrec (ih _ _ _ _ hneed')
                    | unknown nm2 p2 =>
                        intro hcontra
                        injection hcontra with h'
                        exact MacroErr.noConfusion h'
                    | recursion nm2 p2 =>
                        intro hcontra
                        injection hcontra with h'
                        exact MacroErr.noConfusion h'
                    | badSyntax p2 =>
                        intro hcontra
                        injection hcontra with h'
                        exact MacroErr.noConfusion h'
                  · rename_i et hrec
                    intro hcontra
                    exact Except.noConfusion hcontra
          · rw [expandCh_plain ms g seen t pos hc]
            have hneed' : expandNeed ms seen t ≤ g := by
              unfold expandNeed at hneed ⊢
              simp only [List.length_cons] at hneed
              omega
            split
            · rename_i e hrec
              cases e with
              | tooDeep pb => exact absurd hrec (ih _ _ _ _ hneed')
              | unknown nm2 p2 =>
                  intro hcontra
                  injection hcontra with h'
                  exact MacroErr.noConfusion h'
              | recursion nm2 p2 =>
                  intro hcontra
                  injection hcontra with h'
                  exact MacroErr.noConfusion h'
              | badSyntax p2 =>
                  intro hcontra
                  injection hcontra with h'
                  exact MacroErr.noConfusion h'
            · rename_i et hrec
              intro hcontra
              exact Except.noConfusion hcontra

/-- Scanning a dollar-free prefix consumes one fuel unit per character and
propagates any error of the suffix unchanged. -/
theorem scan_prefix_propagates (ms : MacroTable) :
    ∀ (pre : List Char), ('$' : Char) ∉ pre →
      ∀ (g : Nat) (seen : List (List Char)) (rest : List Char) (pos : Nat)
        (e : MacroErr),
        expandCh ms g seen rest (pos + pre.length) = .error e →
        expandCh ms (g + pre.length) seen (pre ++ rest) pos = .error e := by
  intro pre
  induction pre with
  | nil =>
      intro h g seen rest pos e hin
      simpa using hin
  | cons c pre' ih =>
      intro h g seen rest pos e hin
      have hc : c ≠ '$' := fun hcc => h (hcc ▸ List.mem_cons_self _ _)
      have h' : ('$' : Char) ∉ pre' := fun hm => h (List.mem_cons_of_mem _ hm)
      rw [show g + (c :: pre').length = (g + pre'.length) + 1 by
            simp only [List.length_cons]
            omega]
      rw [show (c :: pre') ++ rest = c :: (pre' ++ rest) from rfl]
      rw [expandCh_plain ms (g + pre'.length) seen (pre' ++ rest) pos hc]
      have hin' : expandCh ms g seen rest ((pos + 1) + pre'.length) = .error e := by
        rw [show (pos + 1) + pre'.length = pos + (c :: pre').length by
              simp only [List.length_cons]
              omega]
        exact hin
      rw [ih h' g seen rest (pos + 1) e hin']

/-- Scanning a dollar-free prefix with too little fuel trips the depth
guard (the input remains non-empty throughout). -/
theorem scan_prefix_tooDeep (ms : MacroTable) :
    ∀ (g : Nat) (pre : List Char), ('$' : Char) ∉ pre → g ≤ pre.length →
      ∀ (seen : List (List Char)) (r0 : Char) (rest' : List Char) (pos : Nat),
        ∃ p, expandCh ms g seen (pre ++ r0 :: rest') pos
              = .error (.tooDeep p) := by
  intro g
  induction g with
  | zero =>
      intro pre h hle seen r0 rest' pos
      cases pre with
      | nil => exact ⟨pos, rfl⟩
      | cons c pre' => exact ⟨pos, rfl⟩
  | succ g' ih =>
      intro pre h hle seen r0 rest' pos
      cases pre with
      | nil =>
          simp only [List.length_nil] at hle
          omega
      | cons c pre' =>
          have hc : c ≠ '$' := fun hcc => h (hcc ▸ List.mem_cons_self _ _)
          have h' : ('$' : Char) ∉ pre' := fun hm => h (List.mem_cons_of_mem _ hm)
          have hle' : g' ≤ pre'.length := by
            simp only [List.length_cons] at hle
            omega
          rw [show (c :: pre') ++ r0 :: rest' = c :: (pre' ++ r0 :: rest') from rfl]
          rw [expandCh_plain ms g' seen (pre' ++ r0 :: rest') pos hc]
          obtain ⟨p, hp⟩ := ih pre' h' hle' seen r0 rest' (pos + 1)
          rw [hp]
          exact ⟨p, rfl⟩

/-- Modelled from the spec: a set of macro names each of whose bodies
invokes another member of the set as its first invocation — the general
shape of a macro that expands into itself directly (a singleton set) or
transitively (a larger set). -/
def cyclicSet (ms : MacroTable) (S : List (List Char)) : Prop :=
  ∀ n ∈ S, ('\x7d' : Char) ∉ n ∧
    ∃ pre nxt post, nxt ∈ S ∧ ('$' : Char) ∉ pre ∧
      lookupMacro ms n = some (pre ++ '$' :: '\x7b' :: (nxt ++ '\x7d' :: post))

/-- Invoking any member of a cyclic set ends in the dedicated recursion
error naming a member of the set, or (with insufficient fuel) in the depth
guard — never in a successful expansion. -/
theorem cycle_invocation_errors (ms : MacroTable) (S : List (List Char))
    (hS : cyclicSet ms S) :
    ∀ (f : Nat) (nm rest : List Char) (seen : List (List Char)) (pos : Nat),
      nm ∈ S →
      (∃ n' p, n' ∈ S ∧
        expandCh ms f seen ('$' :: '\x7b' :: (nm ++ '\x7d' :: rest)) pos
          = .error (.recursion n' p)) ∨
      (∃ p, expandCh ms f seen ('$' :: '\x7b' :: (nm ++ '\x7d' :: rest)) pos
          = .error (.tooDeep p)) := by
  intro f
  induction f using Nat.strong_induction_on with
  | _ f IH =>
      intro nm rest seen pos hnm
      obtain ⟨hbrace, pre, nxt, post, hnxtS, hpre, hlook⟩ := hS nm hnm
      cases f with
      | zero =>
          right
          exact ⟨pos, rfl⟩
      | succ g =>
          rw [expandCh_invoke ms g seen nm rest pos hbrace]
          by_cases hseen : nm ∈ seen
          · rw [if_pos hseen]
            left
            exact ⟨nm, pos, hnm, rfl⟩
          · rw [if_neg hseen]
            simp only [hlook]
            by_cases hg : g ≤ pre.length
            · obtain ⟨p, hp⟩ := scan_prefix_tooDeep ms g pre hpre hg (nm :: seen)
                '$' ('\x7b' :: (nxt ++ '\x7d' :: post)) pos
              rw [hp]
              right
              exact ⟨p, rfl⟩
            · push_neg at hg
              obtain ⟨g', rfl⟩ : ∃ g', g = g' + pre.length :=
                ⟨g - pre.length, by omega⟩
              rcases IH g' (by omega) nxt post (nm :: seen) (pos + pre.length)
                  hnxtS with ⟨n', p, hn'S, hrec⟩ | ⟨p, htd⟩
              · rw [scan_prefix_propagates ms pre hpre g' (nm :: seen)
                      ('$' :: '\x7b' :: (nxt ++ '\x7d' :: post)) pos
                      (.recursion n' p) hrec]
                left
                exact ⟨n', p, hn'S, rfl⟩
              · rw [scan_prefix_propagates ms pre hpre g' (nm :: seen)
                      ('$' :: '\x7b' :: (nxt ++ '\x7d' :: post)) pos
                      (.tooDeep p) htd]
                right
                exact ⟨p, rfl⟩

/-- Did expansion end in the internal depth guard? -/
def isTooDeepRes : Except MacroErr (List Char) → Bool
  | .error (.tooDeep _) => true
  | _ => false

theorem dfilter_expand_no_tooDeep (ms : MacroTable) (cs : List Char) (p : Nat) :
    dfilter_expand ms cs ≠ .error (.tooDeep p) := by
  unfold dfilter_expand
  exact expandCh_no_tooDeep ms (expandFuel ms cs) [] cs 0 p
    (expandNeed_le_expandFuel ms cs)

theorem isTooDeepRes_expand_false (ms : MacroTable) (cs : List Char) :
    isTooDeepRes (dfilter_expand ms cs) = false := by
  cases hr : dfilter_expand ms cs with
  | ok out => rfl
  | error e =>
      cases e with
      | unknown nm p => rfl
      | recursion nm p => rfl
      | badSyntax p => rfl
      | tooDeep p => exact absurd hr (dfilter_expand_no_tooDeep ms cs p)

/-- C7: macro expansion terminates on every input — the expander's depth
guard is provably never hit, so expansion always ends in a result or a
genuine error — and a macro that expands into itself, directly or
transitively (any invocation chain within a cyclic set of definitions,
the self-invocations sitting anywhere after invocation-free prefixes),
is stopped by the visited-set check with the dedicated recursion error
instead of looping. -/
theorem claim_macro_recursion_detected :
    (∀ (ms : MacroTable) (cs : List Char),
      isTooDeepRes (dfilter_expand ms cs) = false) ∧
    (∀ (ms : MacroTable) (S : List (List Char)) (tpre nm tpost : List Char),
      cyclicSet ms S → nm ∈ S → ('$' : Char) ∉ tpre →
      ∃ n' p, n' ∈ S ∧
        dfilter_expand ms (tpre ++ '$' :: '\x7b' :: (nm ++ '\x7d' :: tpost))
          = .error (.recursion n' p)) := by
  constructor
  · exact isTooDeepRes_expand_false
  · intro ms S tpre nm tpost hS hnm htpre
    have hlen : tpre.length
        ≤ expandFuel ms (tpre ++ '$' :: '\x7b' :: (nm ++ '\x7d' :: tpost)) := by
      have h1 := length_lt_expandFuel ms
        (tpre ++ '$' :: '\x7b' :: (nm ++ '\x7d' :: tpost))
      have h2 : tpre.length
          ≤ (tpre ++ '$' :: '\x7b' :: (nm ++ '\x7d' :: tpost)).length := by
        simp [List.length_append]
      omega
    obtain ⟨f', hf'⟩ :
        ∃ f', expandFuel ms (tpre ++ '$' :: '\x7b' :: (nm ++ '\x7d' :: tpost))
          = f' + tpre.length :=
      ⟨expandFuel ms (tpre ++ '$' :: '\x7b' :: (nm ++ '\x7d' :: tpost))
          - tpre.length, by omega⟩
    rcases cycle_invocation_errors ms S hS f' nm tpost [] (0 + tpre.length) hnm
      with ⟨n', p, hn'S, hrec⟩ | ⟨p, htd⟩
    · refine ⟨n', p, hn'S, ?_⟩
      unfold dfilter_expand
      rw [hf']
      exact scan_prefix_propagates ms tpre htpre f' []
        ('$' :: '\x7b' :: (nm ++ '\x7d' :: tpost)) 0 (.recursion n' p) hrec
    · exfalso
      have hw := scan_prefix_propagates ms tpre htpre f' []
        ('$' :: '\x7b' :: (nm ++ '\x7d' :: tpost)) 0 (.tooDeep p) htd
      have hfull : dfilter_expand ms (tpre ++ '$' :: '\x7b' :: (nm ++ '\x7d' :: tpost))
          = .error (.tooDeep p) := by
        unfold dfilter_expand
        rw [hf']
        exact hw
      exact dfilter_expand_no_tooDeep ms
        (tpre ++ '$' :: '\x7b' :: (nm ++ '\x7d' :: tpost)) p hfull

theorem claim_macro_recursion_detected_witness :
    ∃ n' p, n' ∈ [['m'], ['n'], ['o']] ∧
      dfilter_expand
        [(['m'], ['a', '$', '\x7b', 'n', '\x7d', 'b']),
         (['n'], ['$', '\x7b', 'o', '\x7d']),
         (['o'], ['$', '\x7b', 'm', '\x7d'])]
        (['x', 'y'] ++ '$' :: '\x7b' :: (['m'] ++ '\x7d' :: ['z']))
        = .error (.recursion n' p) := by
  apply claim_macro_recursion_detected.2
  · intro n hn
    simp only [List.mem_cons, List.not_mem_nil, or_false] at hn
    rcases hn with rfl | rfl | rfl
    · exact ⟨by decide, ['a'], ['n'], ['b'], by decide, by decide, by decide⟩
    · exact ⟨by decide, [], ['o'], [], by decide, by decide, by decide⟩
    · exact ⟨by decide, [], ['m'], [], by decide, by decide, by decide⟩
  · decide
  · decide

/-- C8: a filter whose only diagnostic is the use of a deprecated field
name compiles successfully, its deprecated-token list and warnings list
are non-empty and contain that name, and the warnings never turn the
compilation into a failure. -/
theorem claim_deprecated_compiles_with_warnings :
    ∀ (ms : MacroTable) (reg : Registry) (text cs : List Char) (flags : Nat)
      (toks : List (Tok × Nat)) (raw : RawNode) (tt : STNode)
      (deps : List (List Char)) (nm : List Char),
      (if flags &&& DF_EXPAND_MACROS ≠ 0 then dfilter_expand ms text
       else Except.ok text) = Except.ok cs →
      lexText cs = .ok toks →
      toks.isEmpty = false →
      parseToks toks cs.length = .ok raw →
      resolve reg raw = .ok (tt, deps) →
      nm ∈ deps →
      (dfilter_compile_full ms reg text flags).ok = true ∧
      ∃ df, (dfilter_compile_full ms reg text flags).dfp = some df ∧
        nm ∈ dfilter_deprecated_tokens df ∧
        nm ∈ dfilter_get_warnings df ∧
        (dfilter_get_warnings df).isEmpty = false := by
  intro ms reg text cs flags toks raw tt deps nm hexp hlex hne hparse hres hnm
  obtain ⟨hok, df, hdfp, hdep, hwarn⟩ :=
    compile_deprecated_ok ms reg text cs flags toks raw tt deps hexp hlex hne hparse hres
  refine ⟨hok, df, hdfp, ?_, ?_, ?_⟩
  · rw [show dfilter_deprecated_tokens df = df.deprecated from rfl] at hdep
    show nm ∈ df.deprecated
    rw [hdep]
    exact hnm
  · rw [show dfilter_get_warnings df = df.warnings from rfl] at hwarn
    show nm ∈ df.warnings
    rw [hwarn]
    exact hnm
  · show (dfilter_get_warnings df).isEmpty = false
    rw [show dfilter_get_warnings df = df.warnings from rfl] at hwarn ⊢
    rw [hwarn]
    cases deps with
    | nil => exact absurd hnm (List.not_mem_nil nm)
    | cons a t => rfl

theorem claim_deprecated_compiles_with_warnings_witness :
    (dfilter_compile_full [] [⟨['b'], 2, .ftString, 7, true⟩]
        ['b', ' ', '=', '=', ' ', '"', 'x', '"'] 0).ok = true ∧
    ∃ df, (dfilter_compile_full [] [⟨['b'], 2, .ftString, 7, true⟩]
        ['b', ' ', '=', '=', ' ', '"', 'x', '"'] 0).dfp = some df ∧
      ['b'] ∈ dfilter_deprecated_tokens df ∧
      ['b'] ∈ dfilter_get_warnings df ∧
      (dfilter_get_warnings df).isEmpty = false :=
  claim_deprecated_compiles_with_warnings [] [⟨['b'], 2, .ftString, 7, true⟩]
    ['b', ' ', '=', '=', ' ', '"', 'x', '"']
    ['b', ' ', '=', '=', ' ', '"', 'x', '"'] 0
    [(Tok.ident ['b'], 0), (Tok.cmp .eq, 2), (Tok.strLit ['x'], 5)]
    (.test (.ident ['b']) (.ord .eq) (.strL ['x']))
    (.test 2 (.ord .eq) (.str ['x']))
    [['b']] ['b']
    (by decide) (by decide) (by decide) (by decide) (by decide) (by decide)

/-- C9: the convenience entry point `dfilter_compile` invokes
`dfilter_compile_full` with exactly `DF_EXPAND_MACROS ||| DF_OPTIMIZE`:
macro expansion and optimization are on by default, tree saving and the
lexer/parser debug traces are off. -/
theorem claim_default_compile_flags :
    (∀ (ms : MacroTable) (reg : Registry) (text : List Char),
      dfilter_compile ms reg text
        = dfilter_compile_full ms reg text (DF_EXPAND_MACROS ||| DF_OPTIMIZE)) ∧
    ((DF_EXPAND_MACROS ||| DF_OPTIMIZE) &&& DF_EXPAND_MACROS = DF_EXPAND_MACROS) ∧
    ((DF_EXPAND_MACROS ||| DF_OPTIMIZE) &&& DF_OPTIMIZE = DF_OPTIMIZE) ∧
    ((DF_EXPAND_MACROS ||| DF_OPTIMIZE) &&& DF_SAVE_TREE = 0) ∧
    ((DF_EXPAND_MACROS ||| DF_OPTIMIZE) &&& DF_DEBUG_FLEX = 0) ∧
    ((DF_EXPAND_MACROS ||| DF_OPTIMIZE) &&& DF_DEBUG_LEMON = 0) :=
  ⟨fun _ _ _ => rfl, by decide, by decide, by decide, by decide, by decide⟩

/-- C10: the post-compilation query operations take the compiled program
as read-only: priming a tree, loading field references, and the
interested-in-field/protocol queries all return the program unchanged,
every field included. -/
theorem claim_query_ops_readonly :
    ∀ (df : DFilter) (tr : List Nat) (r : Record) (hfid pid : Nat),
      (dfilter_prime_proto_tree df tr).1 = df ∧
      (dfilter_load_field_references df r).1 = df ∧
      (dfilter_interested_in_field df hfid).2 = df ∧
      (dfilter_interested_in_proto df pid).2 = df ∧
      ((dfilter_prime_proto_tree df tr).1).insns = df.insns ∧
      ((dfilter_prime_proto_tree df tr).1).numRegs = df.numRegs ∧
      ((dfilter_prime_proto_tree df tr).1).verdictReg = df.verdictReg ∧
      ((dfilter_prime_proto_tree df tr).1).interesting = df.interesting ∧
      ((dfilter_prime_proto_tree df tr).1).protos = df.protos ∧
      ((dfilter_prime_proto_tree df tr).1).deprecated = df.deprecated ∧
      ((dfilter_prime_proto_tree df tr).1).warnings = df.warnings ∧
      ((dfilter_prime_proto_tree df tr).1).expandedText = df.expandedText ∧
      ((dfilter_prime_proto_tree df tr).1).treeStr = df.treeStr ∧
      ((dfilter_load_field_references df r).1).insns = df.insns ∧
      ((dfilter_load_field_references df r).1).interesting = df.interesting ∧
      ((dfilter_load_field_references df r).1).deprecated = df.deprecated ∧
      ((dfilter_load_field_references df r).1).warnings = df.warnings :=
  fun _ _ _ _ _ =>
    ⟨rfl, rfl, rfl, rfl, rfl, rfl, rfl, rfl, rfl, rfl, rfl, rfl, rfl, rfl, rfl,
     rfl, rfl⟩

end Dfilter
